/-
Verification of the PinnedMemoryTokenDispatcher
(kernel/object/pinned_memory_token_dispatcher.cpp).

The dispatcher pins a range of a VMO, maps it through a
BusTransactionInitiator's IOMMU, records the resulting device-virtual
addresses in the fixed-size array mapped_addrs_, and implements the
unmap / quarantine / destroy lifecycle.

Modelling conventions:
 * uint64_t / size_t quantities are Nat; arithmetic that can wrap in C++
   (device-address increments, the contiguous-loop remaining counter,
   offset accumulation) is taken mod 2^64 explicitly.
 * zx_status_t is Int with the zircon values (ZX_OK = 0, errors < 0).
 * The IOMMU is an environment: Map is a function from
   (current offset, remaining length) to a MapResult, Unmap is a function
   from (device address, length) to a status.  Every Unmap call the
   dispatcher issues is recorded in a log, so theorems can speak about
   which ranges were unmapped and whether any IOMMU call happened.
 * The while-loops that call Map are given fuel (they consume one unit
   per Map call); running out of fuel yields none.  The C++ loops have no
   intrinsic bound: a Map that keeps returning mapped_len = 0 loops
   forever, which the fuel models honestly.
 * fbl::Array<dev_vaddr_t> mapped_addrs_ is a List Nat; writing
   mapped_addrs_[i] is List.set (out-of-range writes, which are UB in
   C++, are no-ops here and are excluded by the theorems' hypotheses).
-/
import Mathlib

set_option linter.unusedVariables false

/-- 2^64, the modulus of uint64_t / size_t arithmetic. -/
def U64 : Nat := 2 ^ 64

/-- UINT64_MAX, the sentinel stored in mapped_addrs_ for "not mapped"
(InvalidateMappedAddrsLocked). -/
def SENTINEL : Nat := U64 - 1

def ZX_OK : Int := 0
def ZX_ERR_INTERNAL : Int := -1
def ZX_ERR_NO_MEMORY : Int := -4
def ZX_ERR_INVALID_ARGS : Int := -10
def ZX_ERR_NOT_FOUND : Int := -25

/-- Result of one Iommu::Map call: a status and, on success, the mapped
device-virtual address vaddr and the length mapped_len actually mapped. -/
structure MapResult where
  status : Int
  vaddr : Nat
  mappedLen : Nat
deriving DecidableEq, Repr

/-- The IOMMU environment the dispatcher calls into: map takes the
current offset and the remaining length, unmap takes a device address
and a length and returns a status. -/
structure Iommu where
  map : Nat → Nat → MapResult
  unmap : Nat → Nat → Int

/-- The state of one PinnedMemoryTokenDispatcher: the pinned range
(offset_, size_), the contiguity decision, the mapped_addrs_ table, the
explicitly_unpinned_ flag, whether the VMO is paged, and whether the
range is currently pinned (set by Create for a paged VMO, cleared only
by the destructor's Unpin). -/
structure PMT where
  offset : Nat
  size : Nat
  is_contiguous : Bool
  mapped_addrs : List Nat
  explicitly_unpinned : Bool
  vmo_paged : Bool
  pinned : Bool
deriving DecidableEq, Repr

namespace PMT

/-- InvalidateMappedAddrsLocked: fill mapped_addrs_ with UINT64_MAX. -/
def InvalidateMappedAddrsLocked (t : PMT) : PMT :=
  { t with mapped_addrs := t.mapped_addrs.map fun _ => SENTINEL }

/-- MarkUnpinned: set explicitly_unpinned_ (under the lock); nothing else. -/
def MarkUnpinned (t : PMT) : PMT :=
  { t with explicitly_unpinned := true }

end PMT

/-- The scatter-gather walk of UnmapFromIommuLocked: for each table
entry until a sentinel is hit, unmap min(remaining, min_contig) bytes at
that entry, remember the first non-OK status, and keep going.  Returns
the first error (ZX_OK if none) and the log of (address, length) Unmap
calls made.  The DEBUG_ASSERT(err == ZX_OK) after each call is a
debug-build check only and does not alter release behaviour. -/
def sgUnmapLoop (unmapF : Nat → Nat → Int) (minContig : Nat) :
    List Nat → Nat → Int → Int × List (Nat × Nat)
  | [], _, status => (status, [])
  | addr :: rest, remaining, status =>
    if addr = SENTINEL then (status, [])
    else
      let sz := min remaining minContig
      let err := unmapF addr sz
      let status2 := if err ≠ ZX_OK ∧ status = ZX_OK then err else status
      let r := sgUnmapLoop unmapF minContig rest (remaining - sz) status2
      (r.1, (addr, sz) :: r.2)

/-- Core of UnmapFromIommuLocked, shared with the failure path of the
scatter-gather branch of MapIntoIommu (which runs the same code on the
in-construction table).  If the first entry is the sentinel it is a
no-op returning ZX_OK; otherwise the contiguous case issues one Unmap
covering [mapped_addrs_[0], mapped_addrs_[0] + size_), the
scatter-gather case runs the walk, and in both cases the table is then
invalidated.  An empty table (size 0 token) reads mapped_addrs_[0] out
of bounds in C++; here the headD default makes it behave as already
invalidated, and all theorems assume a non-empty table. -/
def unmapCore (unmapF : Nat → Nat → Int) (minContig : Nat)
    (isContig : Bool) (size : Nat) (addrs : List Nat) :
    Int × List Nat × List (Nat × Nat) :=
  if addrs.headD SENTINEL = SENTINEL then (ZX_OK, addrs, [])
  else
    let r :=
      if isContig then
        (unmapF (addrs.headD 0) size, [(addrs.headD 0, size)])
      else
        sgUnmapLoop unmapF minContig addrs size ZX_OK
    (r.1, addrs.map fun _ => SENTINEL, r.2)

namespace PMT

/-- UnmapFromIommuLocked on a token: returns the status, the token with
its table invalidated (unless the guard made it a no-op), and the log of
Unmap calls. -/
def UnmapFromIommuLocked (unmapF : Nat → Nat → Int) (minContig : Nat)
    (t : PMT) : Int × PMT × List (Nat × Nat) :=
  let r := unmapCore unmapF minContig t.is_contiguous t.size t.mapped_addrs
  (r.1, { t with mapped_addrs := r.2.1 }, r.2.2)

/-- on_zero_handles: unmap from the IOMMU (the status is ASSERTed to be
ZX_OK in the kernel), do not unpin, and quarantine the token through the
BTI exactly when explicitly_unpinned_ is false.  Returns the token, the
Unmap log, and whether bti_->Quarantine(this) was called. -/
def on_zero_handles (unmapF : Nat → Nat → Int) (minContig : Nat)
    (t : PMT) : PMT × List (Nat × Nat) × Bool :=
  let r := t.UnmapFromIommuLocked unmapF minContig
  (r.2.1, r.2.2, !t.explicitly_unpinned)

/-- Outcome of the destructor: the final token state, the Unmap log,
whether vmo_->Unpin was called, whether bti_->RemovePmo was called, and
whether the destructor quarantined the token (it never does; the only
Quarantine call in the dispatcher is in on_zero_handles). -/
structure DtorResult where
  token : PMT
  unmapLog : List (Nat × Nat)
  didUnpin : Bool
  removedFromBti : Bool
  quarantined : Bool
deriving DecidableEq, Repr

/-- The destructor: rerun UnmapFromIommuLocked (its status is ASSERTed
ZX_OK), Unpin the range iff the VMO is paged, and RemovePmo from the
BTI. -/
def dtor (unmapF : Nat → Nat → Int) (minContig : Nat) (t : PMT) :
    DtorResult :=
  let r := t.UnmapFromIommuLocked unmapF minContig
  { token := { r.2.1 with pinned := if t.vmo_paged then false else r.2.1.pinned }
    unmapLog := r.2.2
    didUnpin := t.vmo_paged
    removedFromBti := true
    quarantined := false }

end PMT

/-- A token's table is in a binary mapping state: every entry is a valid
(non-sentinel) device address, or every entry is the sentinel. -/
def binaryState (addrs : List Nat) : Prop :=
  (∀ a ∈ addrs, a ≠ SENTINEL) ∨ (∀ a ∈ addrs, a = SENTINEL)

/-- Wrapping uint64 subtraction a - b for a b < 2^64. -/
def wsub (a b : Nat) : Nat := (a + (U64 - b % U64)) % U64

/-- kInvalidAddr, the impossible device address used by the contiguous
branch of MapIntoIommu to mean "no base chosen yet". -/
def kInvalidAddr : Nat := 1

/-- The while-loop of the contiguous branch of MapIntoIommu.  One fuel
unit per Map call; none on fuel exhaustion (the C++ loop has no bound of
its own).  Returns (status, vaddr_base, log of Unmap calls issued on the
error paths).  On a Map failure the range built so far (if any) is
unmapped and the status is returned; on a contiguity mismatch both the
built range and the just-returned range are unmapped and
ZX_ERR_INTERNAL is returned.  The Unmap statuses are ignored, as in the
source. -/
def contigMapLoop (mapF : Nat → Nat → MapResult) (offset : Nat) :
    Nat → Nat → Nat → Nat → Option (Int × Nat × List (Nat × Nat))
  | _, 0, currOffset, vaddrBase => some (ZX_OK, vaddrBase, [])
  | 0, _ + 1, _, _ => none
  | fuel + 1, remaining + 1, currOffset, vaddrBase =>
    let r := mapF currOffset (remaining + 1)
    if r.status ≠ ZX_OK then
      some (r.status, vaddrBase,
        if vaddrBase ≠ kInvalidAddr then [(vaddrBase, wsub currOffset offset)] else [])
    else if vaddrBase = kInvalidAddr then
      contigMapLoop mapF offset fuel (wsub (remaining + 1) r.mappedLen)
        ((currOffset + r.mappedLen) % U64) r.vaddr
    else if r.vaddr ≠ (vaddrBase + wsub currOffset offset) % U64 then
      some (ZX_ERR_INTERNAL, vaddrBase,
        [(vaddrBase, wsub currOffset offset), (r.vaddr, r.mappedLen)])
    else
      contigMapLoop mapF offset fuel (wsub (remaining + 1) r.mappedLen)
        ((currOffset + r.mappedLen) % U64) vaddrBase

/-- The fill after the contiguous loop succeeds: mapped_addrs_[0] is the
base and each later entry is the previous one plus min_contig (uint64
arithmetic). -/
def strideFill (minContig : Nat) : Nat → Nat → List Nat
  | _, 0 => []
  | base, n + 1 => base :: strideFill minContig ((base + minContig) % U64) n

/-- Recursion skeleton for the inner loop of the scatter-gather branch
of MapIntoIommu, structural on a fuel that starts at mappedRemaining:
since each iteration consumes addr_pages = min(mappedRemaining,
min_contig) ≥ 1 of the extent (for the asserted nonzero min_contig),
that fuel is never exhausted before the loop condition fails, so this is
exactly the C++ loop.  When min_contig = 0 the C++ loop would not
terminate; it is modelled as returning immediately and is unreachable
since min_contig is asserted to be a power of two. -/
def chunkSplitAux (minContig : Nat) :
    Nat → Nat → Nat → Nat → List Nat → List Nat × Nat
  | 0, _, _, nextIdx, addrs => (addrs, nextIdx)
  | fuel + 1, mappedRemaining, vaddr, nextIdx, addrs =>
    if mappedRemaining = 0 ∨ minContig = 0 then (addrs, nextIdx)
    else
      let ap := min mappedRemaining minContig
      chunkSplitAux minContig fuel (mappedRemaining - ap) ((vaddr + ap) % U64)
        (nextIdx + 1) (addrs.set nextIdx vaddr)

/-- The inner loop of the scatter-gather branch of MapIntoIommu: break a
returned extent of length mappedRemaining starting at vaddr into chunks
of addr_pages = min(mappedRemaining, min_contig), writing each chunk
start into the table at nextIdx.  Returns the updated table and index. -/
def chunkSplit (minContig : Nat) (vaddr : Nat) (mappedRemaining : Nat)
    (nextIdx : Nat) (addrs : List Nat) : List Nat × Nat :=
  chunkSplitAux minContig mappedRemaining mappedRemaining vaddr nextIdx addrs

/-- The while-loop of the scatter-gather branch of MapIntoIommu.  One
fuel unit per Map call; none on fuel exhaustion.  size is the full
size_ of the token, needed because the failure path runs
UnmapFromIommuLocked (as unmapCore, with is_contiguous_ = false) on the
current table.  Returns (status, table, log of Unmap calls). -/
def sgMapLoop (mapF : Nat → Nat → MapResult) (unmapF : Nat → Nat → Int)
    (minContig size : Nat) :
    Nat → Nat → Nat → Nat → List Nat →
    Option (Int × List Nat × List (Nat × Nat))
  | _, 0, currOffset, nextIdx, addrs => some (ZX_OK, addrs, [])
  | 0, _ + 1, _, _, _ => none
  | fuel + 1, remaining + 1, currOffset, nextIdx, addrs =>
    let r := mapF currOffset (remaining + 1)
    if r.status ≠ ZX_OK then
      let u := unmapCore unmapF minContig false size addrs
      some (r.status, u.2.1, u.2.2)
    else
      let c := chunkSplit minContig r.vaddr r.mappedLen nextIdx addrs
      sgMapLoop mapF unmapF minContig size fuel
        (remaining + 1 - min r.mappedLen (remaining + 1))
        ((currOffset + r.mappedLen) % U64) c.2 c.1

namespace PMT

/-- MapIntoIommu: run the contiguous or scatter-gather policy over
[offset_, offset_ + size_).  Returns none on fuel exhaustion, otherwise
the status, the updated token and the log of Unmap calls issued on
error paths.  In the contiguous case the table is written only after
the whole range mapped; on error it is left as constructed
(all-sentinel). -/
def MapIntoIommu (mapF : Nat → Nat → MapResult)
    (unmapF : Nat → Nat → Int) (minContig : Nat) (fuel : Nat) (t : PMT) :
    Option (Int × PMT × List (Nat × Nat)) :=
  if t.is_contiguous then
    match contigMapLoop mapF t.offset fuel t.size t.offset kInvalidAddr with
    | none => none
    | some (status, base, log) =>
      if status ≠ ZX_OK then some (status, t, log)
      else
        some (ZX_OK,
          { t with mapped_addrs := strideFill minContig base t.mapped_addrs.length },
          log)
  else
    match sgMapLoop mapF unmapF minContig t.size fuel t.size t.offset 0
        t.mapped_addrs with
    | none => none
    | some (status, addrs, log) =>
      some (status, { t with mapped_addrs := addrs }, log)

end PMT

/-- The check_contiguous callback threaded through VmObject::Lookup in
Create: expected_addr state, index 0 never compares, every later page
must equal the previous page plus PAGE_SIZE.  Returns the is_contiguous
decision, i.e. whether Lookup returned ZX_OK rather than
ZX_ERR_NOT_FOUND. -/
def ccLoop (pageSize : Nat) : List Nat → Nat → Nat → Bool
  | [], _, _ => true
  | pa :: rest, idx, expected =>
    if idx ≠ 0 ∧ pa ≠ expected then false
    else ccLoop pageSize rest (idx + 1) ((pa + pageSize) % U64)

/-- is_contiguous for a paged VMO: run the contiguity probe over the
physical page addresses of the pinned range. -/
def checkContiguous (pageSize : Nat) (pages : List Nat) : Bool :=
  ccLoop pageSize pages 0 0

/-- num_addrs of Create: ROUNDUP(size, min_contig) / min_contig, which
for the asserted power-of-two min_contig is ceil(size / min_contig). -/
def numAddrsOf (size minContig : Nat) : Nat :=
  (size + (minContig - 1)) / minContig

/-- Environment of Create: the page size, the BTI's minimum_contiguity,
whether the VMO is paged, the physical page addresses of the range (used
only in the paged case), the statuses of CommitRange and Pin, the two
AllocChecker outcomes (the dev_vaddr_t array and the dispatcher object),
and the IOMMU. -/
structure CreateEnv where
  pageSize : Nat
  minContig : Nat
  vmoPaged : Bool
  pages : List Nat
  commitStatus : Int
  pinStatus : Int
  arrayAllocOk : Bool
  dispatcherAllocOk : Bool
  iommu : Iommu

/-- Outcome of Create: the returned status, the token on success, how
many times vmo_->Unpin ran on this path, whether the range is still
pinned at the end, the log of IOMMU Unmap calls, whether the token ended
registered in the BTI's pmo list, and whether anything was quarantined
(Create never quarantines). -/
structure CreateResult where
  status : Int
  token : Option PMT
  unpinCalls : Nat
  pinnedEnd : Bool
  unmapLog : List (Nat × Nat)
  inBti : Bool
  quarantined : Bool
deriving DecidableEq, Repr

/-- The is_contiguous decision of Create: the contiguity probe for a
paged VMO, always true for a physical VMO. -/
def isContigOf (env : CreateEnv) : Bool :=
  if env.vmoPaged then checkContiguous env.pageSize env.pages else true

/-- How many Unpin calls the unpin_vmo rollback of Create performs when
it runs: one for a paged VMO, none for a physical VMO. -/
def rollbackUnpinsOf (env : CreateEnv) : Nat :=
  if env.vmoPaged then 1 else 0

/-- The token as built by the PinnedMemoryTokenDispatcher constructor:
table of num_addrs entries, invalidated (InvalidateMappedAddrsLocked
runs in the constructor), flag clear, pinned for a paged VMO. -/
def initialToken (env : CreateEnv) (offset size : Nat) : PMT :=
  { offset := offset, size := size, is_contiguous := isContigOf env
    mapped_addrs := List.replicate (numAddrsOf size env.minContig) SENTINEL
    explicitly_unpinned := false, vmo_paged := env.vmoPaged
    pinned := env.vmoPaged }

/-- PinnedMemoryTokenDispatcher::Create.  For a paged VMO: commit, pin,
probe contiguity; a physical VMO is contiguous by definition and is
neither committed nor pinned.  num_addrs = ROUNDUP(size, min_contig) /
min_contig, which for the asserted power-of-two min_contig is
ceil(size / min_contig).  Allocation failures run the unpin_vmo rollback
and return ZX_ERR_NO_MEMORY.  After construction (table invalidated,
AddPmoLocked) the rollback is cancelled and MapIntoIommu runs; on its
failure Create returns the status and the dropped refptr runs the
destructor (UnmapFromIommuLocked, Unpin for a paged VMO, RemovePmo). -/
def Create (env : CreateEnv) (offset size : Nat) (fuel : Nat) :
    Option CreateResult :=
  if env.vmoPaged ∧ env.commitStatus ≠ ZX_OK then
    some ⟨env.commitStatus, none, 0, false, [], false, false⟩
  else if env.vmoPaged ∧ env.pinStatus ≠ ZX_OK then
    some ⟨env.pinStatus, none, 0, false, [], false, false⟩
  else if ¬ env.arrayAllocOk then
    some ⟨ZX_ERR_NO_MEMORY, none, rollbackUnpinsOf env, false, [], false, false⟩
  else if ¬ env.dispatcherAllocOk then
    some ⟨ZX_ERR_NO_MEMORY, none, rollbackUnpinsOf env, false, [], false, false⟩
  else
    match (initialToken env offset size).MapIntoIommu env.iommu.map
        env.iommu.unmap env.minContig fuel with
    | none => none
    | some (status, t1, mlog) =>
      if status ≠ ZX_OK then
        let d := t1.dtor env.iommu.unmap env.minContig
        some ⟨status, none, (if d.didUnpin then 1 else 0), false,
          mlog ++ d.unmapLog, false, false⟩
      else
        some ⟨ZX_OK, some t1, 0, env.vmoPaged, mlog, true, false⟩

/-- Recursion skeleton for the inner loop of the expanded branch of
EncodeAddrs, structural on a fuel that starts at numPages - nextIdx:
each iteration requires nextIdx < numPages and increments nextIdx, so
the fuel is never exhausted before the loop condition fails; when the
fuel is 0, nextIdx ≥ numPages and the loop condition is false anyway, so
this is exactly the C++ loop. -/
def expandLoopAux (pageSize stop numPages : Nat) :
    Nat → Nat → Nat → List Nat → List Nat × Nat
  | 0, _, nextIdx, buf => (buf, nextIdx)
  | fuel + 1, addr, nextIdx, buf =>
    if addr < stop ∧ nextIdx < numPages then
      expandLoopAux pageSize stop numPages fuel ((addr + pageSize) % U64)
        (nextIdx + 1) (buf.set nextIdx addr)
    else (buf, nextIdx)

/-- The inner loop of the expanded branch of EncodeAddrs: write
addr, addr + PAGE_SIZE, ... into the caller's buffer while
addr < stop (stop is extent_base + min_contig in uint64 arithmetic,
computed by the caller) and next_idx < num_pages.  Returns the buffer
and the next index. -/
def expandLoop (pageSize stop numPages : Nat) (addr nextIdx : Nat)
    (buf : List Nat) : List Nat × Nat :=
  expandLoopAux pageSize stop numPages (numPages - nextIdx) addr nextIdx buf

/-- The outer loop of the expanded branch of EncodeAddrs: expand each
table entry in order. -/
def encodeExpand (pageSize minContig numPages : Nat) :
    List Nat → Nat → List Nat → List Nat × Nat
  | [], nextIdx, buf => (buf, nextIdx)
  | e :: rest, nextIdx, buf =>
    let r := expandLoop pageSize ((e + minContig) % U64) numPages e nextIdx buf
    encodeExpand pageSize minContig numPages rest r.2 r.1

namespace PMT

/-- EncodeAddrs: the caller's buffer is modelled as a list whose length
is mapped_addrs_count; the result is the status and the buffer after the
call.  Compressed: the count must equal the table length and the table
is copied verbatim.  Expanded: the count must equal size_ / PAGE_SIZE
and each table entry is expanded into consecutive page addresses up to
extent_base + min_contig, truncated at num_pages. -/
def EncodeAddrs (pageSize minContig : Nat) (compressResults : Bool)
    (buf : List Nat) (t : PMT) : Int × List Nat :=
  let foundAddrs := t.mapped_addrs.length
  if compressResults then
    if foundAddrs ≠ buf.length then (ZX_ERR_INVALID_ARGS, buf)
    else (ZX_OK, t.mapped_addrs)
  else
    let numPages := t.size / pageSize
    if numPages ≠ buf.length then (ZX_ERR_INVALID_ARGS, buf)
    else
      (ZX_OK, (encodeExpand pageSize minContig numPages t.mapped_addrs 0 buf).1)

end PMT

/-
Concrete scenarios used by witnesses and counterexamples: a 4-page
(16 KiB) pinned range with 4 KiB pages and minimum_contiguity 4 KiB, an
IOMMU that maps any request in one call at 0x20000 + offset, physical
pages that are sequential (contiguous scenario) or scattered
(scatter-gather scenario), and an IOMMU whose second contiguous map call
returns an inconsistent base.
-/

/-- An IOMMU that maps every request fully, at device address
0x20000 + offset, and whose unmaps always succeed. -/
def iommuOK : Iommu :=
  { map := fun o r => ⟨ZX_OK, 0x20000 + o, r⟩, unmap := fun _ _ => ZX_OK }

/-- Create environment for the contiguous 4-page scenario. -/
def envContig4 : CreateEnv :=
  { pageSize := 4096, minContig := 4096, vmoPaged := true
    pages := [0x1000, 0x2000, 0x3000, 0x4000]
    commitStatus := ZX_OK, pinStatus := ZX_OK
    arrayAllocOk := true, dispatcherAllocOk := true, iommu := iommuOK }

/-- Create environment for the scatter-gather 4-page scenario. -/
def envSG4 : CreateEnv :=
  { pageSize := 4096, minContig := 4096, vmoPaged := true
    pages := [0x1000, 0x3000, 0x5000, 0x9000]
    commitStatus := ZX_OK, pinStatus := ZX_OK
    arrayAllocOk := true, dispatcherAllocOk := true, iommu := iommuOK }

/-- The token produced by Create in the contiguous 4-page scenario. -/
def tokenContig4 : PMT :=
  { offset := 0, size := 16384, is_contiguous := true
    mapped_addrs := [0x20000, 0x21000, 0x22000, 0x23000]
    explicitly_unpinned := false, vmo_paged := true, pinned := true }

/-- The token produced by Create in the scatter-gather 4-page scenario. -/
def tokenSG4 : PMT :=
  { offset := 0, size := 16384, is_contiguous := false
    mapped_addrs := [0x20000, 0x21000, 0x22000, 0x23000]
    explicitly_unpinned := false, vmo_paged := true, pinned := true }

/-- The scatter-gather token after its table has been invalidated. -/
def tokenInvalidated4 : PMT :=
  { offset := 0, size := 16384, is_contiguous := false
    mapped_addrs := [SENTINEL, SENTINEL, SENTINEL, SENTINEL]
    explicitly_unpinned := false, vmo_paged := true, pinned := true }

/-- A 16 KiB scatter-gather token mapped with minimum_contiguity 8 KiB:
two table entries, each covering two 4 KiB pages. -/
def tokenWide : PMT :=
  { offset := 0, size := 16384, is_contiguous := false
    mapped_addrs := [0x20000, 0x50000]
    explicitly_unpinned := false, vmo_paged := true, pinned := true }

/-- A map function whose first call (offset 0) maps 8 KiB at 0x20000 and
whose second call returns base 0x99000, inconsistent with contiguity. -/
def mismatchMap : Nat → Nat → MapResult := fun o r =>
  if o = 0 then ⟨ZX_OK, 0x20000, 8192⟩ else ⟨ZX_OK, 0x99000, r⟩

/-- Create environment for the contiguity-mismatch failure scenario. -/
def envMismatch : CreateEnv :=
  { pageSize := 4096, minContig := 4096, vmoPaged := true
    pages := [0x1000, 0x2000, 0x3000, 0x4000]
    commitStatus := ZX_OK, pinStatus := ZX_OK
    arrayAllocOk := true, dispatcherAllocOk := true
    iommu := { map := mismatchMap, unmap := fun _ _ => ZX_OK } }

/-- An IOMMU whose map calls always succeed with a positive mapped
length (at least one byte even for a zero-length request). -/
def iommuPos : Iommu :=
  { map := fun o r => ⟨ZX_OK, 0x20000 + o, max r 1⟩
    unmap := fun _ _ => ZX_OK }

/-- An IOMMU that maps any request in one extent at the fixed device
address 0x20000, reporting at least one byte mapped. -/
def iommuConst : Iommu :=
  { map := fun _ r => ⟨ZX_OK, 0x20000, max r 1⟩
    unmap := fun _ _ => ZX_OK }

/-- The per-entry unmap lengths of the scatter-gather unmap walk over a
table of the given entry count: each call unmaps min(remaining,
min_contig) bytes, with remaining decreasing accordingly. -/
def walkSizes (minContig : Nat) : Nat → Nat → List Nat
  | _, 0 => []
  | remaining, n + 1 =>
    min remaining minContig ::
      walkSizes minContig (remaining - min remaining minContig) n

/-- The first non-OK status of a list of statuses, ZX_OK when all are
ZX_OK: the value the status accumulation of the unmap walk computes. -/
def firstError : List Int → Int
  | [] => ZX_OK
  | e :: rest => if e ≠ ZX_OK then e else firstError rest

/-
Helper lemmas: the mapping and unmapping walks preserve the length of
the mapped_addrs_ table.
-/

theorem chunkSplitAux_length (minContig : Nat) :
    ∀ fuel m v i addrs,
      ((chunkSplitAux minContig fuel m v i addrs).1).length = addrs.length := by
  intro fuel
  induction fuel with
  | zero => intro m v i addrs; rfl
  | succ f ih =>
    intro m v i addrs
    rw [chunkSplitAux]
    split
    · rfl
    · rw [ih]; exact List.length_set ..

theorem chunkSplit_length (minContig v m i : Nat) (addrs : List Nat) :
    ((chunkSplit minContig v m i addrs).1).length = addrs.length :=
  chunkSplitAux_length ..

theorem unmapCore_length (unmapF : Nat → Nat → Int) (minContig : Nat)
    (isContig : Bool) (size : Nat) (addrs : List Nat) :
    ((unmapCore unmapF minContig isContig size addrs).2.1).length = addrs.length := by
  rw [unmapCore]
  split
  · rfl
  · exact List.length_map ..

theorem sgMapLoop_length (mapF : Nat → Nat → MapResult)
    (unmapF : Nat → Nat → Int) (minContig size : Nat) :
    ∀ fuel remaining co idx addrs s a2 log,
      sgMapLoop mapF unmapF minContig size fuel remaining co idx addrs
        = some (s, a2, log) → a2.length = addrs.length := by
  intro fuel
  induction fuel with
  | zero =>
    intro remaining co idx addrs s a2 log h
    match remaining, h with
    | 0, h => cases h; rfl
  | succ f ih =>
    intro remaining co idx addrs s a2 log h
    match remaining, h with
    | 0, h => cases h; rfl
    | r + 1, h =>
      rw [sgMapLoop] at h
      split at h
      · cases h
        exact unmapCore_length ..
      · have := ih _ _ _ _ _ _ _ h
        rw [this, chunkSplit_length]

theorem strideFill_length (minContig : Nat) :
    ∀ n base, (strideFill minContig base n).length = n := by
  intro n
  induction n with
  | zero => intro base; rfl
  | succ m ih => intro base; rw [strideFill]; simp [ih]

/-- Characterization of a successful Create: the returned token is the
one MapIntoIommu produced from the constructor state, and the result
record is the success record. -/
theorem Create_success (env : CreateEnv) (offset size fuel : Nat)
    (r : CreateResult) (t : PMT)
    (h1 : Create env offset size fuel = some r) (h2 : r.token = some t) :
    ∃ mlog, (initialToken env offset size).MapIntoIommu env.iommu.map
        env.iommu.unmap env.minContig fuel = some (ZX_OK, t, mlog) ∧
      r = ⟨ZX_OK, some t, 0, env.vmoPaged, mlog, true, false⟩ := by
  rw [Create] at h1
  split at h1
  · cases h1; simp at h2
  · split at h1
    · cases h1; simp at h2
    · split at h1
      · cases h1; simp at h2
      · split at h1
        · cases h1; simp at h2
        · split at h1
          · cases h1
          · rename_i status t1 mlog heq
            split at h1
            · cases h1; simp at h2
            · rename_i hst
              rw [not_not] at hst
              cases h1
              simp only [CreateResult.token, Option.some.injEq] at h2
              subst h2
              subst hst
              exact ⟨mlog, heq, rfl⟩

/-- Characterization of Create when commit, pin and both allocations
succeed but MapIntoIommu fails: the status is propagated, no token is
returned, and the destructor of the dropped refptr has run (its Unmap
log is appended and, for a paged VMO, the pin is released). -/
theorem Create_mapFailure (env : CreateEnv) (offset size fuel : Nat)
    (status : Int) (t1 : PMT) (mlog : List (Nat × Nat))
    (hc : env.commitStatus = ZX_OK) (hp : env.pinStatus = ZX_OK)
    (ha : env.arrayAllocOk = true) (hd : env.dispatcherAllocOk = true)
    (hM : (initialToken env offset size).MapIntoIommu env.iommu.map
        env.iommu.unmap env.minContig fuel = some (status, t1, mlog))
    (hs : status ≠ ZX_OK) :
    Create env offset size fuel =
      some ⟨status, none,
        (if (t1.dtor env.iommu.unmap env.minContig).didUnpin then 1 else 0),
        false, mlog ++ (t1.dtor env.iommu.unmap env.minContig).unmapLog,
        false, false⟩ := by
  rw [Create, if_neg (by simp [hc]), if_neg (by simp [hp]),
    if_neg (by simp [ha]), if_neg (by simp [hd]), hM]
  simp [hs]

theorem MapIntoIommu_length (mapF : Nat → Nat → MapResult)
    (unmapF : Nat → Nat → Int) (minContig fuel : Nat) (t : PMT)
    (s : Int) (t1 : PMT) (log : List (Nat × Nat))
    (h : t.MapIntoIommu mapF unmapF minContig fuel = some (s, t1, log)) :
    t1.mapped_addrs.length = t.mapped_addrs.length := by
  rw [PMT.MapIntoIommu] at h
  split at h
  · rcases hL : contigMapLoop mapF t.offset fuel t.size t.offset kInvalidAddr with _ | ⟨st, base, lg⟩
    · rw [hL] at h; cases h
    · rw [hL] at h
      simp only at h
      split at h
      · cases h; rfl
      · cases h; exact strideFill_length ..
  · rcases hL : sgMapLoop mapF unmapF minContig t.size fuel t.size t.offset 0
        t.mapped_addrs with _ | ⟨st, a2, lg⟩
    · rw [hL] at h; cases h
    · rw [hL] at h
      cases h
      exact sgMapLoop_length _ _ _ _ _ _ _ _ _ _ _ _ hL

/-- C1 (counterexample): in the contiguous 4-page scenario with
minimum_contiguity equal to the page size, Create succeeds with
is_contiguous = true and an AddressTable of 4 entries, not 1 as the
claim states. -/
theorem C1_counterexample :
    Create envContig4 0 16384 8
      = some ⟨ZX_OK, some tokenContig4, 0, true, [], true, false⟩ ∧
    tokenContig4.is_contiguous = true ∧
    tokenContig4.mapped_addrs.length = 4 ∧
    tokenContig4.mapped_addrs.length ≠ 1 := by
  refine ⟨rfl, rfl, rfl, by decide⟩

/-- C1 (amended): for every successfully created token, the AddressTable
length equals ceil(size / minimum_contiguity) regardless of
is_contiguous; in the contiguous case the entries beyond the first are
synthesized by striding minimum_contiguity from the single base, so the
contiguous 4-page range with minimum_contiguity equal to the page size
has 4 entries. -/
theorem C1_addrTable_length (env : CreateEnv) (offset size fuel : Nat)
    (r : CreateResult) (t : PMT)
    (h1 : Create env offset size fuel = some r) (h2 : r.token = some t) :
    t.mapped_addrs.length = numAddrsOf size env.minContig := by
  obtain ⟨mlog, hM, -⟩ := Create_success env offset size fuel r t h1 h2
  have := MapIntoIommu_length _ _ _ _ _ _ _ _ hM
  simpa [initialToken] using this

/-- Witness for C1_addrTable_length at the contiguous 4-page scenario. -/
theorem C1_witness :
    tokenContig4.mapped_addrs.length = numAddrsOf 16384 envContig4.minContig :=
  C1_addrTable_length envContig4 0 16384 8
    ⟨ZX_OK, some tokenContig4, 0, true, [], true, false⟩ tokenContig4 rfl rfl

/-- After unmapCore runs on a table in a binary state, every entry is
the sentinel: either the guard fired (the head, hence by binarity the
whole table, was already the sentinel) or InvalidateMappedAddrsLocked
ran. -/
theorem unmapCore_all_sentinel (unmapF : Nat → Nat → Int) (minContig : Nat)
    (isContig : Bool) (size : Nat) (addrs : List Nat)
    (hbin : binaryState addrs) :
    ∀ a ∈ (unmapCore unmapF minContig isContig size addrs).2.1, a = SENTINEL := by
  rw [unmapCore]
  split
  · rename_i hhead
    rcases hbin with h | h
    · intro a ha
      cases addrs with
      | nil => cases ha
      | cons x rest =>
        simp only [List.headD_cons] at hhead
        exact absurd hhead (h x (by simp))
    · exact h
  · intro a ha
    simp only [List.mem_map] at ha
    obtain ⟨b, -, hb⟩ := ha
    exact hb.symm

/-- The head (with the sentinel as the empty-list default) of an
all-sentinel table is the sentinel. -/
theorem headD_of_all_sentinel (addrs : List Nat)
    (h : ∀ a ∈ addrs, a = SENTINEL) : addrs.headD SENTINEL = SENTINEL := by
  cases addrs with
  | nil => rfl
  | cons x rest => simpa using h x (by simp)

/-- The guard of UnmapFromIommuLocked: a table whose first entry is the
sentinel makes the whole call a successful no-op with no IOMMU calls. -/
theorem UnmapFromIommuLocked_noop (unmapF : Nat → Nat → Int)
    (minContig : Nat) (t : PMT)
    (h : t.mapped_addrs.headD SENTINEL = SENTINEL) :
    t.UnmapFromIommuLocked unmapF minContig = (ZX_OK, t, []) := by
  rw [PMT.UnmapFromIommuLocked, unmapCore, if_pos h]

/-- MapIntoIommu changes only the mapped_addrs_ table: every other
field of the token is preserved. -/
theorem MapIntoIommu_fields (mapF : Nat → Nat → MapResult)
    (unmapF : Nat → Nat → Int) (minContig fuel : Nat) (t : PMT)
    (s : Int) (t1 : PMT) (log : List (Nat × Nat))
    (h : t.MapIntoIommu mapF unmapF minContig fuel = some (s, t1, log)) :
    t1.offset = t.offset ∧ t1.size = t.size ∧
    t1.is_contiguous = t.is_contiguous ∧
    t1.explicitly_unpinned = t.explicitly_unpinned ∧
    t1.vmo_paged = t.vmo_paged ∧ t1.pinned = t.pinned := by
  rw [PMT.MapIntoIommu] at h
  split at h
  · split at h
    · cases h
    · split at h
      · cases h; exact ⟨rfl, rfl, rfl, rfl, rfl, rfl⟩
      · cases h; exact ⟨rfl, rfl, rfl, rfl, rfl, rfl⟩
  · split at h
    · cases h
    · cases h; exact ⟨rfl, rfl, rfl, rfl, rfl, rfl⟩

/-- C2: in the contiguous mapping policy, a non-first map call (the base
is already set) that succeeds but returns a device address different
from base + (current_offset - offset) makes the loop unmap the
previously built range [base, base + (current_offset - offset)) and the
just-returned range [vaddr, vaddr + mapped_len), and return
ZX_ERR_INTERNAL; and when MapIntoIommu fails that way after commit, pin
and both allocations succeeded, Create fails with that status, yields no
token, and the memory pin is released (by the destructor of the dropped
token: one Unpin for a paged VMO). -/
theorem C2_contig_mismatch (mapF : Nat → Nat → MapResult) :
    (∀ (offset fuel remaining currOffset base : Nat),
      remaining ≠ 0 → base ≠ kInvalidAddr →
      (mapF currOffset remaining).status = ZX_OK →
      (mapF currOffset remaining).vaddr ≠ (base + wsub currOffset offset) % U64 →
      contigMapLoop mapF offset (fuel + 1) remaining currOffset base
        = some (ZX_ERR_INTERNAL, base,
            [(base, wsub currOffset offset),
             ((mapF currOffset remaining).vaddr,
              (mapF currOffset remaining).mappedLen)])) ∧
    (∀ (env : CreateEnv) (offset size fuel : Nat) (t1 : PMT)
        (mlog : List (Nat × Nat)),
      env.commitStatus = ZX_OK → env.pinStatus = ZX_OK →
      env.arrayAllocOk = true → env.dispatcherAllocOk = true →
      (initialToken env offset size).MapIntoIommu env.iommu.map
          env.iommu.unmap env.minContig fuel
        = some (ZX_ERR_INTERNAL, t1, mlog) →
      ∃ res, Create env offset size fuel = some res ∧
        res.status = ZX_ERR_INTERNAL ∧ res.token = none ∧
        res.pinnedEnd = false ∧
        res.unpinCalls = (if env.vmoPaged then 1 else 0)) := by
  constructor
  · intro offset fuel remaining currOffset base hrem hbase hst hne
    cases remaining with
    | zero => exact absurd rfl hrem
    | succ m =>
      rw [contigMapLoop, if_neg (by simp [hst]), if_neg hbase, if_pos hne]
  · intro env offset size fuel t1 mlog hc hp ha hd hM
    obtain ⟨-, -, -, -, hvp, -⟩ := MapIntoIommu_fields _ _ _ _ _ _ _ _ hM
    refine ⟨_, Create_mapFailure env offset size fuel ZX_ERR_INTERNAL t1 mlog
      hc hp ha hd hM (by decide), rfl, rfl, rfl, ?_⟩
    have : t1.vmo_paged = env.vmoPaged := by
      simpa [initialToken] using hvp
    simp [PMT.dtor, this]

/-- Witness for C2_contig_mismatch: the mismatch scenario where the
second map call returns 0x99000 instead of 0x22000. -/
theorem C2_witness :
    contigMapLoop mismatchMap 0 5 8192 8192 0x20000
      = some (ZX_ERR_INTERNAL, 0x20000, [(0x20000, 8192), (0x99000, 8192)]) ∧
    ∃ res, Create envMismatch 0 16384 8 = some res ∧
      res.status = ZX_ERR_INTERNAL ∧ res.token = none ∧
      res.pinnedEnd = false ∧
      res.unpinCalls = (if envMismatch.vmoPaged then 1 else 0) := by
  constructor
  · have h := (C2_contig_mismatch mismatchMap).1 0 4 8192 8192 0x20000
      (by decide) (by decide) (by decide) (by decide)
    simpa using h
  · exact (C2_contig_mismatch mismatchMap).2 envMismatch 0 16384 8
      (initialToken envMismatch 0 16384) [(0x20000, 8192), (0x99000, 8192)]
      rfl rfl rfl rfl rfl

/-- C3: when the last handle is dropped, on_zero_handles unmaps the
token from the IOMMU (every table entry becomes the sentinel, via the
unmap algorithm) but keeps the memory pin; the token is quarantined
exactly when explicitly_unpinned_ is false at that moment; and
MarkUnpinned only sets the flag, performing no unmap and no
destruction. -/
theorem C3_quarantine_and_markUnpinned (unmapF : Nat → Nat → Int)
    (minContig : Nat) (t : PMT) (hbin : binaryState t.mapped_addrs) :
    (t.on_zero_handles unmapF minContig).2.2 = !t.explicitly_unpinned ∧
    (∀ a ∈ (t.on_zero_handles unmapF minContig).1.mapped_addrs, a = SENTINEL) ∧
    (t.on_zero_handles unmapF minContig).1.pinned = t.pinned ∧
    (t.on_zero_handles unmapF minContig).2.1
      = (t.UnmapFromIommuLocked unmapF minContig).2.2 ∧
    t.MarkUnpinned = { t with explicitly_unpinned := true } :=
  ⟨rfl, unmapCore_all_sentinel unmapF minContig t.is_contiguous t.size
      t.mapped_addrs hbin, rfl, rfl, rfl⟩

/-- Witness for C3_quarantine_and_markUnpinned at the scatter-gather
4-page token. -/
theorem C3_witness :
    (tokenSG4.on_zero_handles iommuOK.unmap 4096).2.2
      = !tokenSG4.explicitly_unpinned ∧
    (∀ a ∈ (tokenSG4.on_zero_handles iommuOK.unmap 4096).1.mapped_addrs,
      a = SENTINEL) ∧
    (tokenSG4.on_zero_handles iommuOK.unmap 4096).1.pinned = tokenSG4.pinned ∧
    (tokenSG4.on_zero_handles iommuOK.unmap 4096).2.1
      = (tokenSG4.UnmapFromIommuLocked iommuOK.unmap 4096).2.2 ∧
    tokenSG4.MarkUnpinned = { tokenSG4 with explicitly_unpinned := true } :=
  C3_quarantine_and_markUnpinned iommuOK.unmap 4096 tokenSG4
    (Or.inl (by decide))

/-- C4: running the unmap algorithm when the first table entry is the
sentinel is a successful no-op with no IOMMU calls; and running it twice
in a row from any binary state leaves the all-sentinel table both times
while the second invocation returns ZX_OK and makes no IOMMU calls. -/
theorem C4_unmap_idempotent (unmapF : Nat → Nat → Int) (minContig : Nat)
    (t : PMT) (hbin : binaryState t.mapped_addrs) :
    (t.mapped_addrs.headD SENTINEL = SENTINEL →
      t.UnmapFromIommuLocked unmapF minContig = (ZX_OK, t, [])) ∧
    (∀ a ∈ (t.UnmapFromIommuLocked unmapF minContig).2.1.mapped_addrs,
      a = SENTINEL) ∧
    ((t.UnmapFromIommuLocked unmapF minContig).2.1.UnmapFromIommuLocked
        unmapF minContig
      = (ZX_OK, (t.UnmapFromIommuLocked unmapF minContig).2.1, [])) := by
  have hall : ∀ a ∈ (t.UnmapFromIommuLocked unmapF minContig).2.1.mapped_addrs,
      a = SENTINEL :=
    unmapCore_all_sentinel unmapF minContig t.is_contiguous t.size
      t.mapped_addrs hbin
  exact ⟨fun h => UnmapFromIommuLocked_noop unmapF minContig t h, hall,
    UnmapFromIommuLocked_noop unmapF minContig _
      (headD_of_all_sentinel _ hall)⟩

/-- Witness for C4_unmap_idempotent at the scatter-gather 4-page token. -/
theorem C4_witness :
    (tokenSG4.mapped_addrs.headD SENTINEL = SENTINEL →
      tokenSG4.UnmapFromIommuLocked iommuOK.unmap 4096
        = (ZX_OK, tokenSG4, [])) ∧
    (∀ a ∈ (tokenSG4.UnmapFromIommuLocked iommuOK.unmap 4096).2.1.mapped_addrs,
      a = SENTINEL) ∧
    ((tokenSG4.UnmapFromIommuLocked iommuOK.unmap 4096).2.1.UnmapFromIommuLocked
        iommuOK.unmap 4096
      = (ZX_OK, (tokenSG4.UnmapFromIommuLocked iommuOK.unmap 4096).2.1, [])) :=
  C4_unmap_idempotent iommuOK.unmap 4096 tokenSG4 (Or.inl (by decide))

/-- C5: the destructor unconditionally reruns the unmap algorithm (its
Unmap log is exactly the log of UnmapFromIommuLocked), unpins the range
exactly when the VMO is page-backed, deregisters from the BTI, and
never quarantines; and a successful Create followed immediately by
destruction quarantines nothing and unpins the memory exactly once for
a paged VMO (never for a physical one). -/
theorem C5_destroy_roundtrip (env : CreateEnv) (offset size fuel : Nat)
    (r : CreateResult) (t : PMT)
    (h1 : Create env offset size fuel = some r) (h2 : r.token = some t) :
    (∀ (u : Nat → Nat → Int) (mc : Nat) (t2 : PMT),
      (t2.dtor u mc).unmapLog = (t2.UnmapFromIommuLocked u mc).2.2 ∧
      (t2.dtor u mc).didUnpin = t2.vmo_paged ∧
      (t2.dtor u mc).removedFromBti = true ∧
      (t2.dtor u mc).quarantined = false) ∧
    r.quarantined = false ∧
    r.unpinCalls = 0 ∧
    (t.dtor env.iommu.unmap env.minContig).didUnpin = env.vmoPaged ∧
    r.unpinCalls
        + (if (t.dtor env.iommu.unmap env.minContig).didUnpin then 1 else 0)
      = (if env.vmoPaged then 1 else 0) := by
  obtain ⟨mlog, hM, hr⟩ := Create_success env offset size fuel r t h1 h2
  obtain ⟨-, -, -, -, hvp, -⟩ := MapIntoIommu_fields _ _ _ _ _ _ _ _ hM
  have hpd : t.vmo_paged = env.vmoPaged := by simpa [initialToken] using hvp
  subst hr
  exact ⟨fun u mc t2 => ⟨rfl, rfl, rfl, rfl⟩, rfl, rfl,
    by simp [PMT.dtor, hpd], by simp [PMT.dtor, hpd]⟩

/-- Witness for C5_destroy_roundtrip at the contiguous 4-page scenario. -/
theorem C5_witness :
    (∀ (u : Nat → Nat → Int) (mc : Nat) (t2 : PMT),
      (t2.dtor u mc).unmapLog = (t2.UnmapFromIommuLocked u mc).2.2 ∧
      (t2.dtor u mc).didUnpin = t2.vmo_paged ∧
      (t2.dtor u mc).removedFromBti = true ∧
      (t2.dtor u mc).quarantined = false) ∧
    (⟨ZX_OK, some tokenContig4, 0, true, [], true, false⟩ :
        CreateResult).quarantined = false ∧
    (⟨ZX_OK, some tokenContig4, 0, true, [], true, false⟩ :
        CreateResult).unpinCalls = 0 ∧
    (tokenContig4.dtor envContig4.iommu.unmap envContig4.minContig).didUnpin
      = envContig4.vmoPaged ∧
    (⟨ZX_OK, some tokenContig4, 0, true, [], true, false⟩ :
          CreateResult).unpinCalls
        + (if (tokenContig4.dtor envContig4.iommu.unmap
              envContig4.minContig).didUnpin then 1 else 0)
      = (if envContig4.vmoPaged then 1 else 0) :=
  C5_destroy_roundtrip envContig4 0 16384 8
    ⟨ZX_OK, some tokenContig4, 0, true, [], true, false⟩ tokenContig4 rfl rfl

/-- A loop whose entry condition already fails (the address is not below
the stop bound) returns the buffer and index unchanged, whatever the
fuel. -/
theorem expandLoopAux_stop (pageSize stop numPages : Nat)
    (fuel addr nextIdx : Nat) (buf : List Nat) (h : ¬ addr < stop) :
    expandLoopAux pageSize stop numPages fuel addr nextIdx buf
      = (buf, nextIdx) := by
  cases fuel with
  | zero => rfl
  | succ f => rw [expandLoopAux, if_neg (fun hc => h hc.1)]

/-- With the sentinel as extent base, the uint64 stop bound
SENTINEL + min_contig wraps below the sentinel, so the expansion loop
condition is false from the start. -/
theorem sentinel_stop (minContig : Nat) (h : minContig < U64) :
    ¬ SENTINEL < (SENTINEL + minContig) % U64 := by
  have h64 : (2 : Nat) ^ 64 = 18446744073709551616 := by norm_num
  simp only [SENTINEL, U64, h64] at *
  omega

/-- Expanding an all-sentinel table writes nothing: every inner loop
exits immediately because of the wrapped stop bound. -/
theorem encodeExpand_sentinel (pageSize minContig numPages : Nat)
    (hmc : minContig < U64) :
    ∀ (entries : List Nat) (nextIdx : Nat) (buf : List Nat),
      (∀ e ∈ entries, e = SENTINEL) →
      encodeExpand pageSize minContig numPages entries nextIdx buf
        = (buf, nextIdx) := by
  intro entries
  induction entries with
  | nil => intro nextIdx buf h; rfl
  | cons e rest ih =>
    intro nextIdx buf h
    have he : e = SENTINEL := h e (by simp)
    subst he
    rw [encodeExpand, expandLoop,
      expandLoopAux_stop _ _ _ _ _ _ _ (sentinel_stop minContig hmc)]
    exact ih _ _ (fun x hx => h x (by simp [hx]))

/-- C9 (counterexample): expanded export on an invalidated token with a
correctly sized buffer returns ZX_OK but leaves the caller's buffer
exactly as it was — it does not fill it with sentinel-derived values. -/
theorem C9_counterexample :
    tokenInvalidated4.EncodeAddrs 4096 4096 false [7, 7, 7, 7]
      = (ZX_OK, [7, 7, 7, 7]) ∧
    (∀ a ∈ ([7, 7, 7, 7] : List Nat), a ≠ SENTINEL) := by
  exact ⟨rfl, by decide⟩

/-- C9 (amended): address export performs no mapping-validity check;
called on a fully invalidated table with a correctly sized buffer it
returns ZX_OK in both modes rather than reporting an error; compressed
mode copies the sentinels into the buffer, while expanded mode writes
nothing at all (the uint64 stop bound SENTINEL + min_contig wraps, so
the inner loop never runs) and returns the caller's buffer unchanged. -/
theorem C9_export_no_validity_check (pageSize minContig : Nat) (t : PMT)
    (buf bufc : List Nat)
    (hall : ∀ a ∈ t.mapped_addrs, a = SENTINEL)
    (hmc : minContig < U64)
    (hb : t.size / pageSize = buf.length)
    (hbc : t.mapped_addrs.length = bufc.length) :
    t.EncodeAddrs pageSize minContig false buf = (ZX_OK, buf) ∧
    t.EncodeAddrs pageSize minContig true bufc = (ZX_OK, t.mapped_addrs) ∧
    (∀ a ∈ (t.EncodeAddrs pageSize minContig true bufc).2, a = SENTINEL) := by
  have h2 : t.EncodeAddrs pageSize minContig true bufc
      = (ZX_OK, t.mapped_addrs) := by
    rw [PMT.EncodeAddrs, if_pos rfl, if_neg (by simp [hbc])]
  refine ⟨?_, h2, ?_⟩
  · rw [PMT.EncodeAddrs]
    simp only [Bool.false_eq_true, if_false]
    rw [if_neg (by simp [hb]),
      encodeExpand_sentinel pageSize minContig _ hmc t.mapped_addrs 0 buf hall]
  · rw [h2]
    exact hall

/-- Witness for C9_export_no_validity_check at the invalidated 4-page
token. -/
theorem C9_witness :
    tokenInvalidated4.EncodeAddrs 4096 4096 false [7, 7, 7, 7]
      = (ZX_OK, [7, 7, 7, 7]) ∧
    tokenInvalidated4.EncodeAddrs 4096 4096 true [9, 9, 9, 9]
      = (ZX_OK, tokenInvalidated4.mapped_addrs) ∧
    (∀ a ∈ (tokenInvalidated4.EncodeAddrs 4096 4096 true [9, 9, 9, 9]).2,
      a = SENTINEL) :=
  C9_export_no_validity_check 4096 4096 tokenInvalidated4 [7, 7, 7, 7]
    [9, 9, 9, 9] (by decide) (by decide) rfl rfl

/-- C10: the scatter-gather mapping walk terminates for every map
function whose successful calls report a positive mapped length, even
when that length exceeds the remaining count, because remaining
decreases by min(mapped_len, remaining) ≥ 1 per iteration: a fuel of
remaining map calls is always enough (the walk never returns the
fuel-exhaustion marker). -/
theorem C10_sg_map_terminates (mapF : Nat → Nat → MapResult)
    (unmapF : Nat → Nat → Int) (minContig size : Nat)
    (hpos : ∀ o r, (mapF o r).status = ZX_OK → 1 ≤ (mapF o r).mappedLen)
    (hmc : 1 ≤ minContig) :
    ∀ fuel remaining currOffset nextIdx addrs, remaining ≤ fuel →
      (sgMapLoop mapF unmapF minContig size fuel remaining currOffset
        nextIdx addrs).isSome = true := by
  intro fuel
  induction fuel with
  | zero =>
    intro remaining co idx addrs hle
    have h0 : remaining = 0 := Nat.le_zero.mp hle
    subst h0
    rfl
  | succ f ih =>
    intro remaining co idx addrs hle
    cases remaining with
    | zero => rfl
    | succ m =>
      rw [sgMapLoop]
      split
      · rfl
      · rename_i hst
        apply ih
        have h1 : 1 ≤ (mapF co (m + 1)).mappedLen :=
          hpos _ _ (not_not.mp hst)
        omega

/-- Witness for C10_sg_map_terminates at the always-mapping IOMMU with
fuel equal to the 16 KiB range. -/
theorem C10_witness :
    (sgMapLoop iommuPos.map iommuPos.unmap 4096 16384 16384 16384 0 0
      (List.replicate 4 SENTINEL)).isSome = true :=
  C10_sg_map_terminates iommuPos.map iommuPos.unmap 4096 16384
    (fun o r h => le_max_right r 1) (by decide) 16384 16384 0 0
    (List.replicate 4 SENTINEL) (le_refl 16384)

/-- The log of the scatter-gather unmap walk over a sentinel-free table:
the entries, in order, paired with the walkSizes lengths. -/
theorem sgUnmapLoop_log (unmapF : Nat → Nat → Int) (minContig : Nat) :
    ∀ (addrs : List Nat) (remaining : Nat) (s0 : Int),
      (∀ a ∈ addrs, a ≠ SENTINEL) →
      (sgUnmapLoop unmapF minContig addrs remaining s0).2
        = addrs.zip (walkSizes minContig remaining addrs.length) := by
  intro addrs
  induction addrs with
  | nil => intro remaining s0 h; rfl
  | cons a rest ih =>
    intro remaining s0 h
    rw [sgUnmapLoop, if_neg (h a (by simp))]
    simp only [List.length_cons]
    rw [walkSizes, List.zip_cons_cons,
      ih _ _ (fun x hx => h x (by simp [hx]))]

/-- The status of the scatter-gather unmap walk over a sentinel-free
table: the initial status if it is already an error, otherwise the
first error among the statuses of the Unmap calls made. -/
theorem sgUnmapLoop_status (unmapF : Nat → Nat → Int) (minContig : Nat) :
    ∀ (addrs : List Nat) (remaining : Nat) (s0 : Int),
      (∀ a ∈ addrs, a ≠ SENTINEL) →
      (sgUnmapLoop unmapF minContig addrs remaining s0).1
        = if s0 ≠ ZX_OK then s0
          else firstError
            ((addrs.zip (walkSizes minContig remaining addrs.length)).map
              fun p => unmapF p.1 p.2) := by
  intro addrs
  induction addrs with
  | nil =>
    intro remaining s0 h
    by_cases hs : s0 = ZX_OK <;> simp [sgUnmapLoop, firstError, hs]
  | cons a rest ih =>
    intro remaining s0 h
    rw [sgUnmapLoop, if_neg (h a (by simp))]
    simp only [List.length_cons]
    rw [walkSizes, List.zip_cons_cons, List.map_cons]
    rw [ih _ _ (fun x hx => h x (by simp [hx]))]
    by_cases hs : s0 = ZX_OK
    · subst hs
      by_cases he : unmapF a (min remaining minContig) = ZX_OK
      · simp [firstError, he]
      · simp [firstError, he]
    · simp [firstError, hs]

/-- Closed form of walkSizes when the entry count is ceil-consistent
with the remaining length: every call unmaps min_contig except the
last, which unmaps the tail remainder. -/
theorem walkSizes_form (mc : Nat) (hmc : 1 ≤ mc) :
    ∀ (n size : Nat), 1 ≤ size → size ≤ n * mc → (n - 1) * mc < size →
      walkSizes mc size n
        = List.replicate (n - 1) mc ++ [size - (n - 1) * mc] := by
  intro n
  induction n with
  | zero => intro size h1 h2 h3; omega
  | succ k ih =>
    intro size h1 h2 h3
    cases k with
    | zero =>
      have hle : size ≤ mc := by simpa using h2
      rw [walkSizes]
      simp [Nat.min_eq_left hle, walkSizes]
    | succ j =>
      have e1 : (j + 1 + 1) * mc = j * mc + 2 * mc := by ring
      have e2 : (j + 1) * mc = j * mc + mc := by ring
      have e3 : (j + 1 + 1 - 1) * mc = j * mc + mc := by
        simp only [Nat.add_sub_cancel]; ring
      have e4 : (j + 1 - 1) * mc = j * mc := by
        simp only [Nat.add_sub_cancel]
      rw [e1] at h2
      rw [e3] at h3
      have hgt : mc < size := by
        have hj : 0 ≤ j * mc := Nat.zero_le _
        omega
      have hmin : min size mc = mc := Nat.min_eq_right (le_of_lt hgt)
      rw [walkSizes, hmin]
      have ihr := ih (size - mc) (by omega) (by rw [e2]; omega)
        (by rw [e4]; omega)
      rw [ihr]
      have e5 : size - mc - (j + 1 - 1) * mc = size - (j + 1 + 1 - 1) * mc := by
        rw [e3, e4]; omega
      rw [e5]
      rfl

/-- Bounds tying num_addrs = ceil(size / min_contig) to the size: the
table is non-empty, covers the size, and all but the last entry stand
for a full min_contig of the range. -/
theorem numAddrsOf_bounds (size mc : Nat) (hmc : 1 ≤ mc) (hsz : 1 ≤ size) :
    1 ≤ numAddrsOf size mc ∧ size ≤ numAddrsOf size mc * mc ∧
    (numAddrsOf size mc - 1) * mc < size := by
  unfold numAddrsOf
  have hmod := Nat.div_add_mod (size + (mc - 1)) mc
  rw [Nat.mul_comm] at hmod
  have hlt : (size + (mc - 1)) % mc < mc := Nat.mod_lt _ hmc
  have hn1 : 1 ≤ (size + (mc - 1)) / mc := by
    rw [Nat.le_div_iff_mul_le hmc]
    omega
  have key : ∀ A : Nat, A + (size + (mc - 1)) % mc = size + (mc - 1) →
      size ≤ A ∧ A - mc < size := by
    intro A h1
    omega
  obtain ⟨hA1, hA2⟩ := key _ hmod
  have esub : ((size + (mc - 1)) / mc - 1) * mc
      = (size + (mc - 1)) / mc * mc - mc := by
    rw [Nat.sub_mul, one_mul]
  exact ⟨hn1, hA1, by rw [esub]; exact hA2⟩

/-- C7: over a fully mapped scatter-gather token whose table length is
num_addrs = ceil(size / min_contig), the unmap walk unmaps every entry
in order at min_contig bytes except the last, which gets the (possibly
shorter) tail; if some Unmap call errors the walk still unmaps all the
remaining entries, and the returned status is the first error
encountered (ZX_OK if none); afterwards every entry is the sentinel
unconditionally. -/
theorem C7_sg_unmap_walk (unmapF : Nat → Nat → Int) (minContig : Nat)
    (t : PMT) (hcontig : t.is_contiguous = false)
    (hmc : 1 ≤ minContig) (hsz : 1 ≤ t.size)
    (hvalid : ∀ a ∈ t.mapped_addrs, a ≠ SENTINEL)
    (hn : t.mapped_addrs.length = numAddrsOf t.size minContig) :
    (t.UnmapFromIommuLocked unmapF minContig).2.2
      = t.mapped_addrs.zip
          (List.replicate (t.mapped_addrs.length - 1) minContig
            ++ [t.size - (t.mapped_addrs.length - 1) * minContig]) ∧
    t.size - (t.mapped_addrs.length - 1) * minContig ≤ minContig ∧
    (t.UnmapFromIommuLocked unmapF minContig).1
      = firstError ((t.mapped_addrs.zip
          (List.replicate (t.mapped_addrs.length - 1) minContig
            ++ [t.size - (t.mapped_addrs.length - 1) * minContig])).map
          fun p => unmapF p.1 p.2) ∧
    (∀ a ∈ (t.UnmapFromIommuLocked unmapF minContig).2.1.mapped_addrs,
      a = SENTINEL) := by
  obtain ⟨hb1, hb2, hb3⟩ := numAddrsOf_bounds t.size minContig hmc hsz
  rw [← hn] at hb1 hb2 hb3
  have hsizes : walkSizes minContig t.size t.mapped_addrs.length
      = List.replicate (t.mapped_addrs.length - 1) minContig
        ++ [t.size - (t.mapped_addrs.length - 1) * minContig] :=
    walkSizes_form minContig hmc t.mapped_addrs.length t.size hsz hb2 hb3
  have hhead : ¬ t.mapped_addrs.headD SENTINEL = SENTINEL := by
    cases hadr : t.mapped_addrs with
    | nil => rw [hadr] at hb1; simp at hb1
    | cons x rest =>
      simpa using hvalid x (by rw [hadr]; simp)
  have hunf : t.UnmapFromIommuLocked unmapF minContig
      = ((sgUnmapLoop unmapF minContig t.mapped_addrs t.size ZX_OK).1,
         { t with mapped_addrs := t.mapped_addrs.map fun _ => SENTINEL },
         (sgUnmapLoop unmapF minContig t.mapped_addrs t.size ZX_OK).2) := by
    rw [PMT.UnmapFromIommuLocked, unmapCore, if_neg hhead, hcontig]
    simp
  refine ⟨?_, ?_, ?_, ?_⟩
  · rw [hunf]
    rw [show ((sgUnmapLoop unmapF minContig t.mapped_addrs t.size ZX_OK).1,
        ({ t with mapped_addrs := t.mapped_addrs.map fun _ => SENTINEL } : PMT),
        (sgUnmapLoop unmapF minContig t.mapped_addrs t.size ZX_OK).2).2.2
        = (sgUnmapLoop unmapF minContig t.mapped_addrs t.size ZX_OK).2 from rfl]
    rw [sgUnmapLoop_log unmapF minContig t.mapped_addrs t.size ZX_OK hvalid,
      hsizes]
  · obtain ⟨m, hm⟩ : ∃ m, t.mapped_addrs.length = m + 1 :=
      ⟨t.mapped_addrs.length - 1, by omega⟩
    have e : (t.mapped_addrs.length - 1) * minContig + minContig
        = t.mapped_addrs.length * minContig := by
      rw [hm]
      simp only [Nat.add_sub_cancel]
      ring
    have key2 : ∀ A : Nat, t.size ≤ A + minContig → t.size - A ≤ minContig := by
      intro A hA
      omega
    exact key2 _ (by rw [e]; exact hb2)
  · rw [hunf]
    rw [show ((sgUnmapLoop unmapF minContig t.mapped_addrs t.size ZX_OK).1,
        ({ t with mapped_addrs := t.mapped_addrs.map fun _ => SENTINEL } : PMT),
        (sgUnmapLoop unmapF minContig t.mapped_addrs t.size ZX_OK).2).1
        = (sgUnmapLoop unmapF minContig t.mapped_addrs t.size ZX_OK).1 from rfl]
    rw [sgUnmapLoop_status unmapF minContig t.mapped_addrs t.size ZX_OK hvalid,
      hsizes]
    simp
  · rw [hunf]
    intro a ha
    simp only [List.mem_map] at ha
    obtain ⟨b, -, hb⟩ := ha
    exact hb.symm

/-- Witness for C7_sg_unmap_walk at the scatter-gather 4-page token with
an IOMMU whose unmaps fail on the second entry: the walk still covers
all four entries and reports that error. -/
theorem C7_witness :
    (tokenSG4.UnmapFromIommuLocked iommuOK.unmap 4096).2.2
      = tokenSG4.mapped_addrs.zip
          (List.replicate (tokenSG4.mapped_addrs.length - 1) 4096
            ++ [tokenSG4.size - (tokenSG4.mapped_addrs.length - 1) * 4096]) ∧
    tokenSG4.size - (tokenSG4.mapped_addrs.length - 1) * 4096 ≤ 4096 ∧
    (tokenSG4.UnmapFromIommuLocked iommuOK.unmap 4096).1
      = firstError ((tokenSG4.mapped_addrs.zip
          (List.replicate (tokenSG4.mapped_addrs.length - 1) 4096
            ++ [tokenSG4.size - (tokenSG4.mapped_addrs.length - 1) * 4096])).map
          fun p => iommuOK.unmap p.1 p.2) ∧
    (∀ a ∈ (tokenSG4.UnmapFromIommuLocked iommuOK.unmap 4096).2.1.mapped_addrs,
      a = SENTINEL) :=
  C7_sg_unmap_walk iommuOK.unmap 4096 tokenSG4 rfl (by decide) (by decide)
    (by decide) rfl

theorem getD_set_ne (l : List Nat) (i j a : Nat) (h : i ≠ j) :
    (l.set i a).getD j 0 = l.getD j 0 := by
  simp [List.getD_eq_getElem?_getD, List.getElem?_set_ne h]

theorem getD_set_self (l : List Nat) (i a : Nat) (h : i < l.length) :
    (l.set i a).getD i 0 = a := by
  simp [List.getD_eq_getElem?_getD, List.getElem?_set_eq_of_lt a h]

theorem all_ne_of_getD (l : List Nat)
    (h : ∀ j, j < l.length → l.getD j 0 ≠ SENTINEL) :
    ∀ a ∈ l, a ≠ SENTINEL := by
  intro a ha
  obtain ⟨i, hi, rfl⟩ := List.mem_iff_getElem.mp ha
  have hj := h i hi
  rwa [List.getD_eq_getElem l 0 hi] at hj

theorem all_eq_of_getD (l : List Nat)
    (h : ∀ j, j < l.length → l.getD j 0 = SENTINEL) :
    ∀ a ∈ l, a = SENTINEL := by
  intro a ha
  obtain ⟨i, hi, rfl⟩ := List.mem_iff_getElem.mp ha
  have hj := h i hi
  rwa [List.getD_eq_getElem l 0 hi] at hj

theorem numAddrsOf_zero (mc : Nat) (hmc : 1 ≤ mc) : numAddrsOf 0 mc = 0 := by
  unfold numAddrsOf
  exact Nat.div_eq_of_lt (by omega)

theorem numAddrsOf_pos (a mc : Nat) (hmc : 1 ≤ mc) (ha : 1 ≤ a) :
    1 ≤ numAddrsOf a mc := by
  unfold numAddrsOf
  rw [Nat.le_div_iff_mul_le hmc]
  omega

theorem numAddrsOf_small (a mc : Nat) (hmc : 1 ≤ mc) (h1 : 1 ≤ a)
    (h2 : a ≤ mc) : numAddrsOf a mc = 1 := by
  unfold numAddrsOf
  have e2 : a + (mc - 1) < (1 + 1) * mc := by omega
  exact Nat.div_eq_of_lt_le (by omega) e2

theorem numAddrsOf_add_mul (a q mc : Nat) (hmc : 1 ≤ mc) :
    numAddrsOf (q * mc + a) mc = q + numAddrsOf a mc := by
  unfold numAddrsOf
  have e : q * mc + a + (mc - 1) = mc * q + (a + (mc - 1)) := by ring
  rw [e, Nat.mul_add_div (by omega)]

theorem numAddrsOf_step (a mc : Nat) (hmc : 1 ≤ mc) (h : mc < a) :
    numAddrsOf a mc = numAddrsOf (a - mc) mc + 1 := by
  have e : a = 1 * mc + (a - mc) := by omega
  conv_lhs => rw [e]
  rw [numAddrsOf_add_mul _ _ _ hmc]
  omega

theorem numAddrsOf_of_dvd (a mc : Nat) (hmc : 1 ≤ mc) (h : mc ∣ a) :
    numAddrsOf a mc * mc = a := by
  obtain ⟨q, rfl⟩ := h
  have e : mc * q = q * mc + 0 := by ring
  rw [e, numAddrsOf_add_mul _ _ _ hmc, numAddrsOf_zero _ hmc]
  ring

/-- A chunk-split call on a zero-length extent does nothing. -/
theorem chunkSplitAux_zero (mc : Nat) :
    ∀ (fuel vaddr idx : Nat) (addrs : List Nat),
      chunkSplitAux mc fuel 0 vaddr idx addrs = (addrs, idx) := by
  intro fuel vaddr idx addrs
  cases fuel with
  | zero => rfl
  | succ f => rw [chunkSplitAux, if_pos (Or.inl rfl)]

/-- Characterization of the chunk-split inner loop on an extent that
does not reach the sentinel: it writes ceil(len / min_contig)
non-sentinel chunk starts at consecutive indices, leaves every other
position alone, and advances the index by that count. -/
theorem chunkSplitAux_spec (mc : Nat) (hmc : 1 ≤ mc) :
    ∀ (fuel len vaddr idx : Nat) (addrs : List Nat),
      len ≤ fuel → 1 ≤ len → vaddr + len ≤ SENTINEL →
      (chunkSplitAux mc fuel len vaddr idx addrs).2
          = idx + numAddrsOf len mc ∧
      (chunkSplitAux mc fuel len vaddr idx addrs).1.length = addrs.length ∧
      (∀ j, (j < idx ∨ idx + numAddrsOf len mc ≤ j) →
        (chunkSplitAux mc fuel len vaddr idx addrs).1.getD j 0
          = addrs.getD j 0) ∧
      (∀ j, idx ≤ j → j < idx + numAddrsOf len mc → j < addrs.length →
        (chunkSplitAux mc fuel len vaddr idx addrs).1.getD j 0
          ≠ SENTINEL) := by
  intro fuel
  induction fuel with
  | zero =>
    intro len vaddr idx addrs hf h1 hb
    omega
  | succ f ih =>
    intro len vaddr idx addrs hf h1 hb
    rw [chunkSplitAux, if_neg (by omega)]
    simp only
    by_cases hcase : len ≤ mc
    · have hap : min len mc = len := Nat.min_eq_left hcase
      rw [hap, Nat.sub_self, chunkSplitAux_zero]
      have hone : numAddrsOf len mc = 1 := numAddrsOf_small len mc hmc h1 hcase
      rw [hone]
      refine ⟨rfl, List.length_set .., ?_, ?_⟩
      · intro j hj
        exact getD_set_ne _ _ _ _ (by omega)
      · intro j hj1 hj2 hj3
        have hje : j = idx := by omega
        subst hje
        rw [getD_set_self _ _ _ hj3]
        have : (0:Nat) < SENTINEL - vaddr := by omega
        omega
    · have hap : min len mc = mc := Nat.min_eq_right (by omega)
      rw [hap]
      have hwrap : (vaddr + mc) % U64 = vaddr + mc := by
        apply Nat.mod_eq_of_lt
        have : SENTINEL < U64 := by unfold SENTINEL U64; omega
        omega
      rw [hwrap]
      have harg1 : len - mc ≤ f := by omega
      have harg2 : 1 ≤ len - mc := by omega
      have harg3 : vaddr + mc + (len - mc) ≤ SENTINEL := by omega
      obtain ⟨i1, i2, i3, i4⟩ := ih (len - mc) (vaddr + mc) (idx + 1)
        (addrs.set idx vaddr) harg1 harg2 harg3
      have hstep : numAddrsOf len mc = numAddrsOf (len - mc) mc + 1 :=
        numAddrsOf_step len mc hmc (by omega)
      have hpos : 1 ≤ numAddrsOf (len - mc) mc :=
        numAddrsOf_pos _ _ hmc (by omega)
      refine ⟨?_, ?_, ?_, ?_⟩
      · rw [i1, hstep]; omega
      · rw [i2, List.length_set]
      · intro j hj
        rw [i3 j (by omega)]
        exact getD_set_ne _ _ _ _ (by omega)
      · intro j hj1 hj2 hj3
        by_cases hje : j = idx
        · subst hje
          rw [i3 j (Or.inl (by omega))]
          rw [getD_set_self _ _ _ hj3]
          omega
        · exact i4 j (by omega) (by omega)
            (by rw [List.length_set]; exact hj3)

/-- The scatter-gather mapping walk keeps the table all-or-nothing:
from any state satisfying its fill invariant (entries before the write
index valid, entries from it on sentinel, index consistent with the
consumed prefix of the range), every result it returns has a table that
is entirely valid or entirely sentinel.  The initiator contract on map
results: positive mapped length, no overshoot of the remaining length,
min_contig-multiple except for a final extent, and device addresses
clear of the sentinel region. -/
theorem sgMapLoop_binary (mapF : Nat → Nat → MapResult)
    (unmapF : Nat → Nat → Int) (mc size : Nat) (hmc : 1 ≤ mc)
    (hcontract : ∀ o r, 1 ≤ r → (mapF o r).status = ZX_OK →
      1 ≤ (mapF o r).mappedLen ∧ (mapF o r).mappedLen ≤ r ∧
      (mc ∣ (mapF o r).mappedLen ∨ (mapF o r).mappedLen = r) ∧
      (mapF o r).vaddr + size + mc ≤ SENTINEL) :
    ∀ (fuel remaining co idx : Nat) (addrs : List Nat)
      (res : Int × List Nat × List (Nat × Nat)),
      sgMapLoop mapF unmapF mc size fuel remaining co idx addrs = some res →
      addrs.length = numAddrsOf size mc →
      remaining ≤ size →
      (remaining = 0 → idx = numAddrsOf size mc) →
      (remaining ≠ 0 → idx * mc + remaining = size) →
      (∀ j, j < idx → addrs.getD j 0 ≠ SENTINEL) →
      (∀ j, idx ≤ j → j < numAddrsOf size mc → addrs.getD j 0 = SENTINEL) →
      binaryState res.2.1 := by
  intro fuel
  induction fuel with
  | zero =>
    intro remaining co idx addrs res h hlen hrs h0 hne hpre hsuf
    match remaining, h with
    | 0, h =>
      cases h
      left
      apply all_ne_of_getD
      intro j hj
      apply hpre
      have hidx := h0 rfl
      rw [hlen, ← hidx] at hj
      exact hj
  | succ f ih =>
    intro remaining co idx addrs res h hlen hrs h0 hne hpre hsuf
    match remaining, h with
    | 0, h =>
      cases h
      left
      apply all_ne_of_getD
      intro j hj
      apply hpre
      have hidx := h0 rfl
      rw [hlen, ← hidx] at hj
      exact hj
    | m + 1, h =>
      rw [sgMapLoop] at h
      split at h
      · cases h
        show binaryState (unmapCore unmapF mc false size addrs).2.1
        have hn1 : 1 ≤ numAddrsOf size mc :=
          numAddrsOf_pos _ _ hmc (by omega)
        by_cases hidx : idx = 0
        · have hall : ∀ a ∈ addrs, a = SENTINEL := by
            apply all_eq_of_getD
            intro j hj
            exact hsuf j (by omega) (by rw [← hlen]; exact hj)
          rw [unmapCore, if_pos (headD_of_all_sentinel _ hall)]
          exact Or.inr hall
        · have hrw : ¬ addrs.headD SENTINEL = SENTINEL := by
            cases haddr : addrs with
            | nil =>
              rw [haddr] at hlen
              simp only [List.length_nil] at hlen
              omega
            | cons x rest =>
              have h0' : addrs.getD 0 0 ≠ SENTINEL := hpre 0 (by omega)
              rw [haddr] at h0'
              simpa using h0'
          rw [unmapCore, if_neg hrw]
          right
          intro a ha
          simp only [List.mem_map] at ha
          obtain ⟨b, -, hb⟩ := ha
          exact hb.symm
      · rename_i hst
        have hOK : (mapF co (m + 1)).status = ZX_OK := not_not.mp hst
        obtain ⟨hl1, hl2, hl3, hl4⟩ := hcontract co (m + 1) (by omega) hOK
        set len := (mapF co (m + 1)).mappedLen with hL
        set vaddr := (mapF co (m + 1)).vaddr with hV
        simp only [chunkSplit] at h
        rw [Nat.min_eq_left hl2] at h
        have hb : vaddr + len ≤ SENTINEL := by omega
        obtain ⟨c1, c2, c3, c4⟩ := chunkSplitAux_spec mc hmc
          len len vaddr idx addrs (le_refl _) hl1 hb
        rw [c1] at h
        have heqn : idx * mc + (m + 1) = size := hne (by omega)
        have hcov : size ≤ numAddrsOf size mc * mc :=
          (numAddrsOf_bounds size mc hmc (by omega)).2.1
        have hcnt1 : 1 ≤ numAddrsOf len mc := numAddrsOf_pos _ _ hmc hl1
        have hidxle : idx + numAddrsOf len mc ≤ numAddrsOf size mc := by
          by_cases hz : len = m + 1
          · have hsum : numAddrsOf size mc = idx + numAddrsOf (m + 1) mc := by
              rw [← heqn]
              exact numAddrsOf_add_mul (m + 1) idx mc hmc
            rw [hsum, hz]
          · have hdvd : mc ∣ len := by
              rcases hl3 with hd | hd
              · exact hd
              · exact absurd hd hz
            have hcm : numAddrsOf len mc * mc = len :=
              numAddrsOf_of_dvd len mc hmc hdvd
            have e : (idx + numAddrsOf len mc) * mc
                = idx * mc + numAddrsOf len mc * mc := by ring
            have hlt : (idx + numAddrsOf len mc) * mc < numAddrsOf size mc * mc := by
              rw [e, hcm]
              omega
            exact le_of_lt (lt_of_mul_lt_mul_right hlt (Nat.zero_le mc))
        have h0' : m + 1 - len = 0 → idx + numAddrsOf len mc = numAddrsOf size mc := by
          intro hz
          have hz2 : len = m + 1 := by omega
          have hsum : numAddrsOf size mc = idx + numAddrsOf (m + 1) mc := by
            rw [← heqn]
            exact numAddrsOf_add_mul (m + 1) idx mc hmc
          rw [hsum, hz2]
        have hne' : m + 1 - len ≠ 0 →
            (idx + numAddrsOf len mc) * mc + (m + 1 - len) = size := by
          intro hz
          have hdvd : mc ∣ len := by
            rcases hl3 with hd | hd
            · exact hd
            · exfalso; omega
          have hcm : numAddrsOf len mc * mc = len :=
            numAddrsOf_of_dvd len mc hmc hdvd
          have e : (idx + numAddrsOf len mc) * mc
              = idx * mc + numAddrsOf len mc * mc := by ring
          rw [e, hcm]
          omega
        apply ih (m + 1 - len) ((co + len) % U64) (idx + numAddrsOf len mc)
          (chunkSplitAux mc len len vaddr idx addrs).1 res h
        · rw [c2]; exact hlen
        · omega
        · exact h0'
        · exact hne'
        · intro j hj
          by_cases hcase : j < idx
          · rw [c3 j (Or.inl hcase)]
            exact hpre j hcase
          · apply c4 j (by omega) hj
            rw [hlen]
            omega
        · intro j hj1 hj2
          rw [c3 j (Or.inr hj1)]
          exact hsuf j (by omega) hj2

/-- The base address a successful contiguous mapping loop returns is
either the one it started from or the address of some successful map
call on a positive remaining length. -/
theorem contigMapLoop_base (mapF : Nat → Nat → MapResult) (offset : Nat) :
    ∀ (fuel remaining co base0 b : Nat) (l : List (Nat × Nat)),
      contigMapLoop mapF offset fuel remaining co base0 = some (ZX_OK, b, l) →
      b = base0 ∨ ∃ o r, 1 ≤ r ∧ (mapF o r).status = ZX_OK ∧
        b = (mapF o r).vaddr := by
  intro fuel
  induction fuel with
  | zero =>
    intro remaining co base0 b l h
    match remaining, h with
    | 0, h =>
      simp only [contigMapLoop, Option.some.injEq, Prod.mk.injEq] at h
      exact Or.inl h.2.1.symm
  | succ f ih =>
    intro remaining co base0 b l h
    match remaining, h with
    | 0, h =>
      simp only [contigMapLoop, Option.some.injEq, Prod.mk.injEq] at h
      exact Or.inl h.2.1.symm
    | m + 1, h =>
      rw [contigMapLoop] at h
      split at h
      · rename_i hst
        simp only [Option.some.injEq, Prod.mk.injEq] at h
        exact absurd h.1 hst
      · rename_i hst
        split at h
        · rename_i hbase
          rcases ih _ _ _ _ _ h with h1 | h2
          · exact Or.inr ⟨co, m + 1, by omega, not_not.mp hst, h1⟩
          · exact Or.inr h2
        · rename_i hbase
          split at h
          · simp only [Option.some.injEq, Prod.mk.injEq] at h
            exact absurd h.1 (by decide)
          · rcases ih _ _ _ _ _ h with h1 | h2
            · exact Or.inl h1
            · exact Or.inr h2

/-- Entries synthesized by striding min_contig from a base that stays
clear of the sentinel never hit the sentinel. -/
theorem strideFill_ne_sentinel (mc : Nat) (hmc : 1 ≤ mc) :
    ∀ (n base : Nat), base + n * mc ≤ SENTINEL →
      ∀ x ∈ strideFill mc base n, x ≠ SENTINEL := by
  intro n
  induction n with
  | zero => intro base h x hx; cases hx
  | succ k ih =>
    intro base h x hx
    have e : (k + 1) * mc = k * mc + mc := by ring
    rw [e] at h
    rw [strideFill] at hx
    rcases List.mem_cons.mp hx with rfl | hx2
    · omega
    · have hwrap : (base + mc) % U64 = base + mc := by
        apply Nat.mod_eq_of_lt
        have hS : SENTINEL < U64 := by unfold SENTINEL U64; omega
        omega
      rw [hwrap] at hx2
      exact ih (base + mc) (by omega) x hx2

theorem numAddrsOf_mul_le (a mc : Nat) :
    numAddrsOf a mc * mc ≤ a + (mc - 1) :=
  Nat.div_mul_le_self _ _

theorem getD_of_all (l : List Nat) (h : ∀ a ∈ l, a = SENTINEL) :
    ∀ j, j < l.length → l.getD j 0 = SENTINEL := by
  intro j hj
  rw [List.getD_eq_getElem l 0 hj]
  exact h _ (List.getElem_mem hj)

/-- unmapCore maps a binary table to a binary table: the guard keeps it
untouched, every other path invalidates it entirely. -/
theorem binary_unmapCore (unmapF : Nat → Nat → Int) (mc : Nat)
    (isContig : Bool) (size : Nat) (addrs : List Nat)
    (hbin : binaryState addrs) :
    binaryState (unmapCore unmapF mc isContig size addrs).2.1 := by
  rw [unmapCore]
  split
  · exact hbin
  · right
    intro a ha
    simp only [List.mem_map] at ha
    obtain ⟨b, -, hb⟩ := ha
    exact hb.symm

/-- MapIntoIommu started from the constructor state (all-sentinel table
of num_addrs entries) only returns tables that are entirely valid or
entirely sentinel, under the initiator contract on map results. -/
theorem MapIntoIommu_binary (mapF : Nat → Nat → MapResult)
    (unmapF : Nat → Nat → Int) (mc fuel : Nat) (t : PMT)
    (hmc : 1 ≤ mc)
    (hcontract : ∀ o r, 1 ≤ r → (mapF o r).status = ZX_OK →
      1 ≤ (mapF o r).mappedLen ∧ (mapF o r).mappedLen ≤ r ∧
      (mc ∣ (mapF o r).mappedLen ∨ (mapF o r).mappedLen = r) ∧
      (mapF o r).vaddr + t.size + mc ≤ SENTINEL)
    (hlen : t.mapped_addrs.length = numAddrsOf t.size mc)
    (hinv : ∀ a ∈ t.mapped_addrs, a = SENTINEL)
    (s : Int) (t1 : PMT) (log : List (Nat × Nat))
    (h : t.MapIntoIommu mapF unmapF mc fuel = some (s, t1, log)) :
    binaryState t1.mapped_addrs := by
  rw [PMT.MapIntoIommu] at h
  by_cases hic : t.is_contiguous = true
  · rw [if_pos hic] at h
    split at h
    · cases h
    · rename_i status base lg heq
      split at h
      · cases h
        exact Or.inr hinv
      · rename_i hss
        rw [not_not] at hss
        subst hss
        cases h
        show binaryState (strideFill mc base t.mapped_addrs.length)
        by_cases hsz : t.size = 0
        · left
          intro x hx
          rw [hlen, hsz, numAddrsOf_zero _ hmc] at hx
          cases hx
        · have hb : ∃ o r, 1 ≤ r ∧ (mapF o r).status = ZX_OK ∧
              base = (mapF o r).vaddr := by
            obtain ⟨m, hm⟩ : ∃ m, t.size = m + 1 := ⟨t.size - 1, by omega⟩
            rw [hm] at heq
            cases fuel with
            | zero => cases heq
            | succ f =>
              rw [contigMapLoop] at heq
              split at heq
              · rename_i hst
                simp only [Option.some.injEq, Prod.mk.injEq] at heq
                exact absurd heq.1 hst
              · rename_i hst
                split at heq
                · rcases contigMapLoop_base mapF t.offset _ _ _ _ _ _ heq
                    with h1 | h2
                  · exact ⟨t.offset, m + 1, by omega, not_not.mp hst, h1⟩
                  · exact h2
                · rename_i hbase
                  exact absurd rfl hbase
          obtain ⟨o, r, hr1, hOK, hbase⟩ := hb
          have hbound := (hcontract o r hr1 hOK).2.2.2
          rw [← hbase] at hbound
          left
          apply strideFill_ne_sentinel mc hmc
          have hmul := numAddrsOf_mul_le t.size mc
          rw [hlen]
          omega
  · rw [if_neg hic] at h
    split at h
    · cases h
    · rename_i status addrs2 lg heq
      cases h
      show binaryState addrs2
      refine sgMapLoop_binary mapF unmapF mc t.size hmc hcontract
        fuel t.size t.offset 0 t.mapped_addrs _ heq
        hlen (le_refl _) ?_ ?_ ?_ ?_
      · intro hz
        rw [hz, numAddrsOf_zero _ hmc]
      · intro hz
        omega
      · intro j hj
        omega
      · intro j hj1 hj2
        apply getD_of_all _ hinv
        rw [hlen]
        exact hj2

/-- C6: the AddressTable is binary at the completion of every operation
on a token: MapIntoIommu at creation (run from the constructor's
all-sentinel table, under the initiator contract on map results), the
unmap algorithm, last-handle release and destruction each leave a table
whose entries are all valid addresses or all the sentinel — never a
mixed table. -/
theorem C6_all_or_nothing (mapF : Nat → Nat → MapResult)
    (unmapF : Nat → Nat → Int) (minContig : Nat) (hmc : 1 ≤ minContig) :
    (∀ (t : PMT) (fuel : Nat) (s : Int) (t1 : PMT) (log : List (Nat × Nat)),
      (∀ o r, 1 ≤ r → (mapF o r).status = ZX_OK →
        1 ≤ (mapF o r).mappedLen ∧ (mapF o r).mappedLen ≤ r ∧
        (minContig ∣ (mapF o r).mappedLen ∨ (mapF o r).mappedLen = r) ∧
        (mapF o r).vaddr + t.size + minContig ≤ SENTINEL) →
      t.mapped_addrs.length = numAddrsOf t.size minContig →
      (∀ a ∈ t.mapped_addrs, a = SENTINEL) →
      t.MapIntoIommu mapF unmapF minContig fuel = some (s, t1, log) →
      binaryState t1.mapped_addrs) ∧
    (∀ t : PMT, binaryState t.mapped_addrs →
      binaryState (t.UnmapFromIommuLocked unmapF minContig).2.1.mapped_addrs) ∧
    (∀ t : PMT, binaryState t.mapped_addrs →
      binaryState (t.on_zero_handles unmapF minContig).1.mapped_addrs) ∧
    (∀ t : PMT, binaryState t.mapped_addrs →
      binaryState (t.dtor unmapF minContig).token.mapped_addrs) := by
  refine ⟨?_, ?_, ?_, ?_⟩
  · intro t fuel s t1 log hcontract hlen hinv h
    exact MapIntoIommu_binary mapF unmapF minContig fuel t hmc hcontract hlen
      hinv s t1 log h
  · intro t hbin
    exact binary_unmapCore unmapF minContig t.is_contiguous t.size
      t.mapped_addrs hbin
  · intro t hbin
    exact binary_unmapCore unmapF minContig t.is_contiguous t.size
      t.mapped_addrs hbin
  · intro t hbin
    exact binary_unmapCore unmapF minContig t.is_contiguous t.size
      t.mapped_addrs hbin

/-- Witness for C6_all_or_nothing: the scatter-gather 4-page scenario
mapped through the constant-extent IOMMU, and the unmap, release and
destroy paths on the mapped token. -/
theorem C6_witness :
    binaryState ({ tokenInvalidated4 with
      mapped_addrs := [0x20000, 0x21000, 0x22000, 0x23000] } : PMT).mapped_addrs ∧
    binaryState
      (tokenSG4.UnmapFromIommuLocked iommuConst.unmap 4096).2.1.mapped_addrs ∧
    binaryState
      (tokenSG4.on_zero_handles iommuConst.unmap 4096).1.mapped_addrs ∧
    binaryState (tokenSG4.dtor iommuConst.unmap 4096).token.mapped_addrs := by
  have hthm := C6_all_or_nothing iommuConst.map iommuConst.unmap 4096 (by decide)
  refine ⟨?_, hthm.2.1 tokenSG4 (Or.inl (by decide)),
    hthm.2.2.1 tokenSG4 (Or.inl (by decide)),
    hthm.2.2.2 tokenSG4 (Or.inl (by decide))⟩
  refine hthm.1 tokenInvalidated4 8 ZX_OK
    ({ tokenInvalidated4 with
      mapped_addrs := [0x20000, 0x21000, 0x22000, 0x23000] } : PMT) []
    ?_ rfl (by decide) rfl
  intro o r hr hst
  have hm : max r 1 = r := Nat.max_eq_left hr
  refine ⟨?_, ?_, Or.inr ?_, ?_⟩
  · show (1:Nat) ≤ max r 1
    omega
  · show max r 1 ≤ r
    omega
  · show max r 1 = r
    omega
  · show 0x20000 + tokenInvalidated4.size + 4096 ≤ SENTINEL
    decide

/-- A loop whose index has already reached num_pages returns the buffer
and index unchanged, whatever the fuel. -/
theorem expandLoopAux_full (ps stop numPages fuel addr idx : Nat)
    (buf : List Nat) (h : ¬ idx < numPages) :
    expandLoopAux ps stop numPages fuel addr idx buf = (buf, idx) := by
  cases fuel with
  | zero => rfl
  | succ f => rw [expandLoopAux, if_neg (fun hc => h hc.2)]

/-- Characterization of the expansion inner loop when the stop bound
does not wrap: starting k page-steps below the bound, it writes
base, base + page_size, ... at consecutive indices, stopping at the
chunk end or at num_pages, whichever comes first. -/
theorem expandLoopAux_spec (ps : Nat) (hps : 1 ≤ ps) :
    ∀ (k fuel base idx numPages : Nat) (buf : List Nat),
      base + k * ps < U64 →
      numPages - idx ≤ fuel →
      idx ≤ numPages →
      (expandLoopAux ps (base + k * ps) numPages fuel base idx buf).2
        = min (idx + k) numPages ∧
      (expandLoopAux ps (base + k * ps) numPages fuel base idx buf).1.length
        = buf.length ∧
      (∀ j, j < idx ∨ min (idx + k) numPages ≤ j →
        (expandLoopAux ps (base + k * ps) numPages fuel base idx buf).1.getD j 0
          = buf.getD j 0) ∧
      (∀ j, idx ≤ j → j < min (idx + k) numPages → j < buf.length →
        (expandLoopAux ps (base + k * ps) numPages fuel base idx buf).1.getD j 0
          = base + (j - idx) * ps) := by
  intro k
  induction k with
  | zero =>
    intro fuel base idx numPages buf hw hf hidx
    rw [Nat.zero_mul, Nat.add_zero,
      expandLoopAux_stop _ _ _ _ _ _ _ (lt_irrefl base)]
    exact ⟨by omega, rfl, fun j hj => rfl, fun j hj1 hj2 hj3 => by omega⟩
  | succ k' ih =>
    intro fuel base idx numPages buf hw hf hidx
    have e : (k' + 1) * ps = k' * ps + ps := by ring
    by_cases hin : idx < numPages
    · cases fuel with
      | zero => omega
      | succ f =>
        rw [expandLoopAux, if_pos ⟨by omega, hin⟩]
        have hwrap : (base + ps) % U64 = base + ps := by
          apply Nat.mod_eq_of_lt
          omega
        rw [hwrap]
        have estop : base + (k' + 1) * ps = (base + ps) + k' * ps := by ring
        rw [estop]
        obtain ⟨i1, i2, i3, i4⟩ := ih f (base + ps) (idx + 1) numPages
          (buf.set idx base) (by omega) (by omega) (by omega)
        refine ⟨by rw [i1]; omega, by rw [i2, List.length_set], ?_, ?_⟩
        · intro j hj
          rw [i3 j (by omega)]
          exact getD_set_ne _ _ _ _ (by omega)
        · intro j hj1 hj2 hj3
          by_cases hje : j = idx
          · subst hje
            rw [i3 j (Or.inl (by omega)), getD_set_self _ _ _ hj3]
            simp
          · rw [i4 j (by omega) (by omega)
              (by rw [List.length_set]; exact hj3)]
            have e2 : j - idx = (j - (idx + 1)) + 1 := by omega
            have e3 : (j - idx) * ps = (j - (idx + 1)) * ps + ps := by
              rw [e2]; ring
            omega
    · rw [expandLoopAux_full _ _ _ _ _ _ _ hin]
      refine ⟨?_, rfl, fun j hj => rfl, fun j hj1 hj2 hj3 => by omega⟩
      show idx = min (idx + (k' + 1)) numPages
      omega

/-- Characterization of the expanded-export outer loop: processing the
table entries in order from write position min(c k, num_pages), it
advances the position by k slots per entry (truncated at num_pages),
and fills position j with entry (j - c k) / k stepped by
page_size * ((j - c k) mod k). -/
theorem encodeExpand_write (ps k np : Nat) (hps : 1 ≤ ps) (hk : 1 ≤ k) :
    ∀ (entries : List Nat) (c : Nat) (buf : List Nat),
      (∀ e ∈ entries, e + k * ps < U64) →
      buf.length = np →
      (encodeExpand ps (k * ps) np entries (min (c * k) np) buf).2
        = min ((c + entries.length) * k) np ∧
      (encodeExpand ps (k * ps) np entries (min (c * k) np) buf).1.length
        = buf.length ∧
      (∀ j, j < min (c * k) np →
        (encodeExpand ps (k * ps) np entries (min (c * k) np) buf).1.getD j 0
          = buf.getD j 0) ∧
      (∀ j, min (c * k) np ≤ j → j < min ((c + entries.length) * k) np →
        (encodeExpand ps (k * ps) np entries (min (c * k) np) buf).1.getD j 0
          = entries.getD ((j - c * k) / k) 0 + ((j - c * k) % k) * ps) := by
  intro entries
  induction entries with
  | nil =>
    intro c buf hwr hlen
    refine ⟨?_, rfl, fun j hj => rfl, ?_⟩
    · show min (c * k) np = min ((c + List.length []) * k) np
      simp
    · intro j hj1 hj2
      simp only [List.length_nil, Nat.add_zero] at hj2
      omega
  | cons e rest ih =>
    intro c buf hwr hlen
    have e1 : (c + 1) * k = c * k + k := by ring
    have hew : e + k * ps < U64 := hwr e (by simp)
    have hwrap : (e + k * ps) % U64 = e + k * ps := Nat.mod_eq_of_lt hew
    simp only [encodeExpand, expandLoop, hwrap]
    obtain ⟨i1, i2, i3, i4⟩ := expandLoopAux_spec ps hps k
      (np - min (c * k) np) e (min (c * k) np) np buf hew (le_refl _)
      (by omega)
    rw [i1]
    have emin : min (min (c * k) np + k) np = min ((c + 1) * k) np := by
      omega
    rw [emin]
    obtain ⟨o1, o2, o3, o4⟩ := ih (c + 1)
      (expandLoopAux ps (e + k * ps) np (np - min (c * k) np) e
        (min (c * k) np) buf).1
      (fun x hx => hwr x (by simp [hx])) (by rw [i2]; exact hlen)
    have e2 : (c + 1 + rest.length) * k = (c + (e :: rest).length) * k := by
      simp only [List.length_cons]
      ring
    refine ⟨?_, ?_, ?_, ?_⟩
    · rw [o1, e2]
    · rw [o2, i2]
    · intro j hj
      rw [o3 j (by omega), i3 j (Or.inl hj)]
    · intro j hj1 hj2
      simp only [List.length_cons] at hj2
      have hjnp : j < np := (lt_min_iff.mp hj2).2
      have hcklt : c * k ≤ np := by
        rcases Nat.le_total (c * k) np with hck | hck
        · exact hck
        · rw [Nat.min_eq_right hck] at hj1
          omega
      have hmineq : min (c * k) np = c * k := Nat.min_eq_left hcklt
      by_cases ha : j < min ((c + 1) * k) np
      · rw [o3 j ha, i4 j hj1 (by rw [emin]; exact ha) (by omega)]
        rw [hmineq] at hj1 ⊢
        have hjck : j < (c + 1) * k := (lt_min_iff.mp ha).1
        have hlt : j - c * k < k := by omega
        rw [Nat.div_eq_of_lt hlt, Nat.mod_eq_of_lt hlt]
        simp [List.getD_cons_zero]
      · have hle1 : (c + 1) * k ≤ np := by
          rcases Nat.le_total ((c + 1) * k) np with hck | hck
          · exact hck
          · rw [Nat.min_eq_right hck] at ha
            omega
        have hle2 : (c + 1) * k ≤ j := by
          rw [Nat.min_eq_left hle1] at ha
          omega
        have e3 : (c + 1 + rest.length) * k = (c + (rest.length + 1)) * k := by
          ring
        rw [o4 j (by rw [Nat.min_eq_left hle1]; exact hle2)
          (by rw [e3]; exact hj2)]
        rw [hmineq] at hj1
        have hge : k ≤ j - c * k := by omega
        have ed : (j - c * k) / k = (j - c * k - k) / k + 1 :=
          Nat.div_eq_sub_div (by omega) hge
        have em : (j - c * k) % k = (j - c * k - k) % k :=
          Nat.mod_eq_sub_mod hge
        have es : j - c * k - k = j - (c + 1) * k := by omega
        rw [ed, em, es]
        simp [List.getD_cons_succ]

theorem numAddrsOf_cover (a mc : Nat) (hmc : 1 ≤ mc) :
    a ≤ numAddrsOf a mc * mc := by
  cases Nat.eq_zero_or_pos a with
  | inl h => subst h; exact Nat.zero_le _
  | inr h => exact (numAddrsOf_bounds a mc hmc h).2.1

/-- C8: expanded export of a mapped token whose table length is
num_addrs = ceil(size / min_contig) and whose entries stay clear of the
top of the address space, with a buffer of exactly size / page_size
elements, succeeds and writes exactly that many addresses: position j
holds table entry j / k plus (j mod k) pages, where
min_contig = k * page_size.  Within each min_contig chunk consecutive
addresses thus differ by exactly page_size, the chunk starts are the
table entries in order, and the final chunk is truncated at the true
page count. -/
theorem C8_expanded_export (ps k : Nat) (t : PMT) (buf : List Nat)
    (hps : 1 ≤ ps) (hk : 1 ≤ k)
    (hn : t.mapped_addrs.length = numAddrsOf t.size (k * ps))
    (hwrapb : ∀ e ∈ t.mapped_addrs, e + k * ps < U64)
    (hbuf : buf.length = t.size / ps) :
    t.EncodeAddrs ps (k * ps) false buf
      = (ZX_OK, (List.range (t.size / ps)).map
          fun j => t.mapped_addrs.getD (j / k) 0 + (j % k) * ps) := by
  rw [PMT.EncodeAddrs]
  simp only [Bool.false_eq_true, if_false]
  rw [if_neg (by omega)]
  obtain ⟨w1, w2, w3, w4⟩ := encodeExpand_write ps k (t.size / ps) hps hk
    t.mapped_addrs 0 buf hwrapb hbuf
  have hzero : min (0 * k) (t.size / ps) = 0 := by simp
  rw [hzero] at w1 w2 w3 w4
  have hcover : t.size ≤ numAddrsOf t.size (k * ps) * k * ps := by
    have := numAddrsOf_cover t.size (k * ps) (Nat.mul_pos hk hps)
    calc t.size ≤ numAddrsOf t.size (k * ps) * (k * ps) := this
    _ = numAddrsOf t.size (k * ps) * k * ps := by ring
  have hfull : t.size / ps ≤ (0 + t.mapped_addrs.length) * k := by
    rw [Nat.zero_add, hn]
    calc t.size / ps ≤ numAddrsOf t.size (k * ps) * k * ps / ps :=
          Nat.div_le_div_right hcover
    _ = numAddrsOf t.size (k * ps) * k := Nat.mul_div_cancel _ (by omega)
  have hminr : min ((0 + t.mapped_addrs.length) * k) (t.size / ps)
      = t.size / ps := Nat.min_eq_right hfull
  have hBL : (encodeExpand ps (k * ps) (t.size / ps) t.mapped_addrs 0 buf).1
      = (List.range (t.size / ps)).map
          fun j => t.mapped_addrs.getD (j / k) 0 + (j % k) * ps := by
    apply List.ext_getElem
    · rw [w2, hbuf]
      simp
    · intro i h1 h2
      have hi : i < t.size / ps := by
        rw [w2, hbuf] at h1
        exact h1
      have hB := w4 i (Nat.zero_le i) (by rw [hminr]; exact hi)
      simp only [Nat.sub_zero] at hB
      rw [← List.getD_eq_getElem _ 0 h1, hB]
      simp [List.getElem_map, List.getElem_range]
  rw [hBL]

/-- Witness for C8_expanded_export at the 16 KiB token mapped with
minimum_contiguity 8 KiB (two entries, two pages per chunk). -/
theorem C8_witness :
    tokenWide.EncodeAddrs 4096 (2 * 4096) false [0, 0, 0, 0]
      = (ZX_OK, (List.range (tokenWide.size / 4096)).map
          fun j => tokenWide.mapped_addrs.getD (j / 2) 0 + (j % 2) * 4096) :=
  C8_expanded_export 4096 2 tokenWide [0, 0, 0, 0] (by decide) (by decide)
    rfl (by decide) rfl
